import Mathlib

/-!
Verification of the flexible character accuracy core of dinglehopper
(`qurator/dinglehopper/flexible_character_accuracy.py`).

The Python code is shallowly embedded: strings are `List Char`, Python ints
are `ℕ`/`ℤ`, floats are `ℚ` (all float arithmetic in the source is exact on
the values involved: sums, products and single divisions of small integers),
`float("inf")`/`-float("inf")` sentinels are `Option` states (`none` plays
the role of the unreached sentinel), and the in-place list mutation of the
line pools is explicit state passing.  The `while` loop of
`match_with_coefficients` is embedded with an explicit fuel argument; the
termination theorem for claim C6 shows the chosen fuel is never exhausted.

The record types (`Part`, `Distance`, `Match`, `Coefficients`) live in the
repository's `flexible_character_accuracy_ds` module, which is not part of
the provided sources; they are modelled from the spec (section 3, DATA
MODEL).  The `ops` field of `Match` (the raw edit-operation list) is not
modelled: per the spec it is "not used by the scorer" and no claim mentions
it.  The external Levenshtein `editops` primitive is likewise modelled from
the spec (sections 2 C3, 4.2 and 6): a minimal classical edit script; only
the per-kind counts are consumed by the code, so the model computes the
counts of one minimal script directly, with a fixed tie preference
(replace, then delete, then insert) among equally cheap scripts.
-/

namespace FCA

/-- Python slice `s[i:j]` for nonnegative bounds: out-of-range bounds are
clamped, `none` means "to the end". -/
def pySlice (s : List Char) (i : ℕ) : Option ℕ → List Char
  | none => s.drop i
  | some j => (s.take j).drop i

/-- Helper for `pySplitlines`: accumulates the current line (reversed). -/
def splitlinesGo : List Char → List Char → List (List Char)
  | acc, [] => if acc.isEmpty then [] else [acc.reverse]
  | acc, c :: cs =>
    if c = '\n' then acc.reverse :: splitlinesGo [] cs else splitlinesGo (c :: acc) cs

/-- Python `str.splitlines`, restricted to the `\n` separator (the only one
the spec admits): a trailing newline does not produce a final empty line. -/
def pySplitlines (s : List Char) : List (List Char) := splitlinesGo [] s

/-- Modelled from the spec: the `Part` record of the missing
`flexible_character_accuracy_ds` module — a line fragment with its origin
line index and start offset within that line. -/
structure Part where
  text : List Char
  line : ℕ
  start : ℕ
deriving DecidableEq, Repr

/-- `Part.length` property: `len(self.text)`. -/
def Part.length (p : Part) : ℕ := p.text.length

/-- `Part.end` property (renamed, `end` is a Lean keyword):
`self.start + self.length`. -/
def Part.endPos (p : Part) : ℕ := p.start + p.length

/-- `Part.substring(rel_start, rel_end)`: `text[rel_start:rel_end]` with the
start offset shifted by `rel_start`. -/
def Part.substring (p : Part) (relStart : ℕ) (relEnd : Option ℕ) : Part :=
  ⟨pySlice p.text relStart relEnd, p.line, p.start + relStart⟩

/-- `Part.split(split)`: the remainder parts before and after `other`. -/
def Part.split (p other : Part) : List Part :=
  (if p.start < other.start then [p.substring 0 (some (other.start - p.start))] else [])
    ++ (if other.endPos < p.endPos then [p.substring (other.endPos - p.start) none] else [])

/-- Modelled from the spec: the `Distance` record of the missing
`flexible_character_accuracy_ds` module — the four edit-operation counters
(`match` is renamed `matchCount`, `match` is a Lean keyword). -/
structure Distance where
  insert : ℕ
  delete : ℕ
  replace : ℕ
  matchCount : ℕ
deriving DecidableEq, Repr

/-- Modelled from the spec: the `Match` record of the missing
`flexible_character_accuracy_ds` module (without the unused `ops` field). -/
structure Match where
  gt : Part
  ocr : Part
  dist : Distance
deriving DecidableEq, Repr

/-- Modelled from the spec: the `Coefficients` record of the missing
`flexible_character_accuracy_ds` module. -/
structure Coefficients where
  edit_dist : ℕ
  length_diff : ℕ
  offset : ℕ
  length : ℕ
deriving DecidableEq, Repr

/-- Total number of operations of a count triple `(insert, delete, replace)`. -/
def total3 (t : ℕ × ℕ × ℕ) : ℕ := t.1 + t.2.1 + t.2.2

/-- Choose the cheapest of three count triples, preferring the first on ties
(preference order: replace, delete, insert). -/
def pick3 (r d i : ℕ × ℕ × ℕ) : ℕ × ℕ × ℕ :=
  let b1 := if total3 d < total3 r then d else r
  if total3 i < total3 b1 then i else b1

/-- Helper for `levCounts`: the row for head `x` and tail `a`, where `fa`
gives the counts of `a` against any second string. -/
def levCountsGo (x : Char) (a : List Char) (fa : List Char → ℕ × ℕ × ℕ) :
    List Char → ℕ × ℕ × ℕ
  | [] => (0, a.length + 1, 0)
  | y :: b =>
    if x = y then fa b
    else
      let r := fa b
      let d := fa (y :: b)
      let i := levCountsGo x a fa b
      pick3 (r.1, r.2.1, r.2.2 + 1) (d.1, d.2.1 + 1, d.2.2) (i.1 + 1, i.2.1, i.2.2)

/-- Modelled from the spec: the external Levenshtein `editops` primitive,
reduced to what the code consumes — the `(insert, delete, replace)` counts
of one minimal classical edit script transforming `a` into `b`. -/
def levCounts : List Char → List Char → ℕ × ℕ × ℕ
  | [], b => (b.length, 0, 0)
  | x :: a, b => levCountsGo x a (levCounts a) b

/-- `distance(gt, ocr)`: count the edit operations between the two texts;
the `match` counter is `len(gt) - deletes - replaces`. -/
def distance (gt ocr : Part) : Match :=
  let c := levCounts gt.text ocr.text
  ⟨gt, ocr, ⟨c.1, c.2.1, c.2.2, gt.length - c.2.1 - c.2.2⟩⟩

/-- `score_edit_distance`: `deletes + inserts + 2 * replacements`. -/
def score_edit_distance (d : Distance) : ℕ := d.delete + d.insert + 2 * d.replace

/-- `calculate_penalty`: scalar cost of a candidate match (source lines
289-317); `length_diff / 2` is real division, embedded in `ℚ`. -/
def calculate_penalty (gt_length ocr_length gt_start ocr_start gt_match_start
    ocr_match_start : ℕ) (dist : Distance) (coef : Coefficients) : ℚ :=
  let min_edit_dist : ℕ := score_edit_distance dist
  let length_diff : ℕ := ((gt_length : ℤ) - (ocr_length : ℤ)).natAbs
  let substring_length : ℕ := min gt_length ocr_length
  let offset : ℚ :=
    if 1 < length_diff then
      let substring_pos : ℤ :=
        max ((gt_match_start : ℤ) - gt_start) ((ocr_match_start : ℤ) - ocr_start)
      (length_diff : ℚ) / 2 - |(substring_pos : ℚ) - (length_diff : ℚ) / 2|
    else 0
  (min_edit_dist : ℚ) * coef.edit_dist + (length_diff : ℚ) * coef.length_diff
    + offset * coef.offset - (substring_length : ℚ) * coef.length

/-- `character_accuracy`: `1 - errors / chars` with the two degenerate
branches for `chars == 0`. -/
def character_accuracy (edits : Distance) : ℚ :=
  let errors := edits.replace + edits.delete + edits.insert
  let chars := edits.matchCount + edits.replace + edits.delete
  if chars = 0 ∧ errors = 0 then 1
  else if chars = 0 then -(errors : ℚ)
  else 1 - (errors : ℚ) / (chars : ℚ)

/-- Pointwise sum of two `Distance` counters (the `Counter` addition of the
source; all counters are nonnegative, so no positivity filtering arises). -/
def addDist (a b : Distance) : Distance :=
  ⟨a.insert + b.insert, a.delete + b.delete, a.replace + b.replace,
    a.matchCount + b.matchCount⟩

/-- The aggregated `Distance` of a match list (the `reduce` of the source). -/
def aggDist (ms : List Match) : Distance :=
  ms.foldl (fun acc m => addDist acc m.dist) ⟨0, 0, 0, 0⟩

/-- `character_accuracy_for_matches`: accuracy of the aggregated counters. -/
def character_accuracy_for_matches (ms : List Match) : ℚ :=
  character_accuracy (aggDist ms)

/-- Stable descending insertion by `length` (places `x` before any part of
equal length, matching Python's stable `sort(key=len, reverse=True)`). -/
def insertDesc (x : Part) : List Part → List Part
  | [] => [x]
  | y :: ys => if x.length < y.length then y :: insertDesc x ys else x :: y :: ys

/-- Stable sort by `length` descending (Python `sort(key=..., reverse=True)`). -/
def sortDesc : List Part → List Part
  | [] => []
  | x :: xs => insertDesc x (sortDesc xs)

/-- `initialize_lines`: split into lines, keep the non-empty ones (with their
original indices), sort by length descending. -/
def initialize_lines (text : List Char) : List Part :=
  sortDesc ((((pySplitlines text).enum).filter (fun p => p.2.length ≠ 0)).map
    (fun p => ⟨p.2, p.1, 0⟩))

/-- Is `ed` below the running `min_edit_dist` (`none` = `float("inf")`)? -/
def ltEditOpt (ed : ℕ) : Option (ℕ × Match × ℕ × ℕ) → Bool
  | none => true
  | some s => ed < s.1

/-- One step of the candidate-pair loop of `match_lines`: accept the pair if
its edit score is a strict improvement and its replacements stay below the
overlap length. -/
def mlStep (minLength : ℕ) (st : Option (ℕ × Match × ℕ × ℕ))
    (pr : (ℕ × Part) × (ℕ × Part)) : Option (ℕ × Match × ℕ × ℕ) :=
  let m := distance pr.1.2 pr.2.2
  let ed := score_edit_distance m.dist
  if ltEditOpt ed st && decide (m.dist.replace < minLength) then
    some (ed, m, pr.1.1, pr.2.1)
  else st

/-- The GT-side slide candidates of `match_lines`: the windows of width
`ml` at offsets `0 .. max(0, ld)`, plus the full line. -/
def gtSlideParts (g : Part) (ml : ℕ) (ld : ℤ) : List (ℕ × Part) :=
  (List.range (max 1 (ld + 1)).toNat).map (fun i => (i, g.substring i (some (i + ml))))
    ++ [(0, g)]

/-- The OCR-side slide candidates of `match_lines`. -/
def ocrSlideParts (o : Part) (ml : ℕ) (ld : ℤ) : List (ℕ × Part) :=
  (List.range (max 1 (-ld + 1)).toNat).map (fun j => (j, o.substring j (some (j + ml))))
    ++ [(0, o)]

/-- One step of the elongation pass of `match_lines`. -/
def elongStep (gt_line ocr_line : Part) (minLength i j : ℕ) (st : ℕ × Match) (k : ℕ) :
    ℕ × Match :=
  let mm := distance (gt_line.substring i (some (i + k)))
    (ocr_line.substring j (some (j + k)))
  let ed := score_edit_distance mm.dist
  if decide (ed < st.1) && decide (mm.dist.replace < minLength) then (ed, mm) else st

/-- The elongation pass of `match_lines`: if the best pair has deletes or
replaces, try extending both sides by up to `deletes + replaces` characters. -/
def mlElongate (gt_line ocr_line : Part) (minLength : ℕ) :
    Option (ℕ × Match × ℕ × ℕ) → Option (ℕ × Match × ℕ × ℕ)
  | none => none
  | some (e, m, i, j) =>
    if m.dist.delete ≠ 0 ∨ m.dist.replace ≠ 0 then
      let r := (List.range' (m.gt.length + 1) (m.dist.delete + m.dist.replace)).foldl
        (elongStep gt_line ocr_line minLength i j) (e, m)
      some (r.1, r.2, i, j)
    else some (e, m, i, j)

/-- `match_lines(gt_line, ocr_line)`: naive local alignment — slide the
shorter line along the longer, then the elongation pass, then the
pure-deletion fallback. -/
def match_lines (gt_line ocr_line : Part) : Option Match :=
  let min_length := min gt_line.length ocr_line.length
  if min_length = 0 then none
  else
    let length_diff : ℤ := (gt_line.length : ℤ) - (ocr_line.length : ℤ)
    let gt_parts := gtSlideParts gt_line min_length length_diff
    let ocr_parts := ocrSlideParts ocr_line min_length length_diff
    let st1 := (gt_parts.flatMap (fun g => ocr_parts.map (fun o => (g, o)))).foldl
      (mlStep min_length) none
    let st2 := mlElongate gt_line ocr_line min_length st1
    let fm := distance gt_line ⟨[], ocr_line.line, ocr_line.start⟩
    let st3 :=
      if ltEditOpt (score_edit_distance fm.dist) st2 then
        some (score_edit_distance fm.dist, fm, 0, 0)
      else st2
    st3.map (fun s => s.2.1)

/-- Is `p` below the running `min_penalty` (`none` = `float("inf")`)? -/
def ltPenOpt (p : ℚ) : Option (ℚ × Match × Part) → Bool
  | none => true
  | some s => p < s.1

/-- One step of `match_gt_line`'s loop over the OCR pool. -/
def mglStep (gt_line : Part) (coef : Coefficients) (st : Option (ℚ × Match × Part))
    (ocr_line : Part) : Option (ℚ × Match × Part) :=
  match match_lines gt_line ocr_line with
  | none => st
  | some m =>
    let p := calculate_penalty gt_line.length ocr_line.length gt_line.start
      ocr_line.start m.gt.start m.ocr.start m.dist coef
    if ltPenOpt p st then some (p, m, ocr_line) else st

/-- `match_gt_line`: the minimum-penalty partner of `gt_line` in the OCR pool. -/
def match_gt_line (gt_line : Part) (ocr_lines : List Part) (coef : Coefficients) :
    Option Match × Option Part :=
  match ocr_lines.foldl (mglStep gt_line coef) none with
  | none => (none, none)
  | some (_, m, o) => (some m, some o)

/-- Is the candidate score a strict improvement (`none` = `-float("inf")`)? -/
def gtScoreOpt (s : ℚ) : Option (ℚ × Match × Part × Part) → Bool
  | none => true
  | some t => t.1 < s

/-- Has the running best reached a perfect character accuracy? -/
def geOneOpt : Option (ℚ × Match × Part × Part) → Bool
  | none => false
  | some t => 1 ≤ t.1

/-- One step of the candidate loop of `match_longest_gt_lines`: keep the
candidate with the strictly better character accuracy. -/
def mlglStep (ocr_lines : List Part) (coef : Coefficients)
    (st : Option (ℚ × Match × Part × Part)) (g : Part) :
    Option (ℚ × Match × Part × Part) :=
  match match_gt_line g ocr_lines coef with
  | (some m, some o) =>
    let score := character_accuracy m.dist
    if gtScoreOpt score st then some (score, m, g, o) else st
  | _ => st

/-- The candidate loop of `match_longest_gt_lines`, with the early break on
a perfect character accuracy. -/
def mlglGo (ocr_lines : List Part) (coef : Coefficients) :
    List Part → Option (ℚ × Match × Part × Part) → Option (ℚ × Match × Part × Part)
  | [], st => st
  | g :: gs, st =>
    let st' := mlglStep ocr_lines coef st g
    if geOneOpt st' then st' else mlglGo ocr_lines coef gs st'

/-- `remove_or_split`: delete the first pool entry equal to `original`; if
the match consumed only a proper sub-range, re-insert the remainders and
re-sort.  Returns the new pool and the `splitted` flag of the source. -/
def remove_or_split (original mtch : Part) (lines : List Part) : List Part × Bool :=
  let ls := lines.erase original
  if mtch.length < original.length then (sortDesc (ls ++ original.split mtch), true)
  else (ls, false)

/-- `match_longest_gt_lines`: the single outer step — all GT parts longer
than the threshold are matched, the best (by character accuracy) is
committed and both pools are updated.  The source indexes `gt_lines[0]` and
is only ever called with a non-empty GT pool; the empty case returns the
pools unchanged. -/
def match_longest_gt_lines (gt_lines ocr_lines : List Part) (coef : Coefficients) :
    Option Match × List Part × List Part :=
  match ocr_lines, gt_lines with
  | [], _ => (none, gt_lines, ocr_lines)
  | _ :: _, [] => (none, gt_lines, ocr_lines)
  | o0 :: _, g0 :: _ =>
    let threshold : ℤ := ((min g0.length o0.length : ℕ) : ℤ) - 1
    let cands := gt_lines.takeWhile (fun l => decide (threshold < (l.length : ℤ)))
    match mlglGo ocr_lines coef cands none with
    | none => (none, gt_lines, ocr_lines)
    | some (_, m, bg, bo) =>
      (some m, (remove_or_split bg m.gt gt_lines).1, (remove_or_split bo m.ocr ocr_lines).1)

/-- Total character count of a pool. -/
def sumLen (l : List Part) : ℕ := (l.map Part.length).sum

/-- The `while` loop of `match_with_coefficients`, with explicit fuel (the
loop body appends the committed match, if any, and replaces both pools). -/
def mwcLoop (coef : Coefficients) : ℕ → List Part → List Part → List Match →
    List Match × List Part × List Part
  | 0, g, o, ms => (ms, g, o)
  | fuel + 1, g, o, ms =>
    if g.isEmpty || o.isEmpty then (ms, g, o)
    else
      let r := match_longest_gt_lines g o coef
      mwcLoop coef fuel r.2.1 r.2.2 (ms ++ r.1.toList)

/-- `match_with_coefficients`: steps 1-6 — run the picker loop, then fold
the leftover GT parts into pure deletes and leftover OCR parts into pure
inserts.  The fuel `sumLen gt_lines + 1` is sufficient (claim C6). -/
def match_with_coefficients (gt ocr : List Char) (coef : Coefficients) : List Match :=
  let ocr_lines := initialize_lines ocr
  let gt_lines := initialize_lines gt
  let r := mwcLoop coef (sumLen gt_lines + 1) gt_lines ocr_lines []
  let deletes := r.2.1.map (fun l => distance l ⟨[], l.line, l.start⟩)
  let inserts := r.2.2.map (fun l => distance ⟨[], l.line, l.start⟩ l)
  r.1 ++ deletes ++ inserts

/-- The fixed 768-point coefficient grid, in cartesian-product order
(`itertools.product(range(15,31,5), range(0,24,3), range(0,4), range(0,6))`). -/
def coefGrid : List Coefficients :=
  [15, 20, 25, 30].flatMap fun ed =>
    [0, 3, 6, 9, 12, 15, 18, 21].flatMap fun ld =>
      [0, 1, 2, 3].flatMap fun off =>
        [0, 1, 2, 3, 4, 5].map fun ln => (⟨ed, ld, off, ln⟩ : Coefficients)

/-- Is the candidate sweep score a strict improvement (`none` = `-inf`)? -/
def gtOptBot (s : ℚ) : Option ℚ → Bool
  | none => true
  | some b => b < s

/-- Has the sweep reached a perfect score (early-break test)? -/
def geOneBot : Option ℚ → Bool
  | none => false
  | some s => 1 ≤ s

/-- The coefficient sweep loop with the early break on a perfect score. -/
def sweepGo (gt ocr : List Char) : List Coefficients → Option ℚ × List Match →
    Option ℚ × List Match
  | [], st => st
  | c :: cs, st =>
    let ms := match_with_coefficients gt ocr c
    let score := character_accuracy_for_matches ms
    let st' := if gtOptBot score st.1 then (some score, ms) else st
    if geOneBot st'.1 then st' else sweepGo gt ocr cs st'

/-- `flexible_character_accuracy(gt, ocr)`: the best score over the fixed
coefficient grid together with its match list (`none` = the initial
`-float("inf")`, never returned since the grid is non-empty). -/
def flexible_character_accuracy (gt ocr : List Char) : Option ℚ × List Match :=
  sweepGo gt ocr coefGrid (none, [])

/-! ## Derived notions used by the claims -/

/-- The two per-match counter invariants of the spec (section 3):
`match + delete + replace = |gt.text|` and `match + insert + replace = |ocr.text|`. -/
def ValidMatch (m : Match) : Prop :=
  m.dist.matchCount + m.dist.delete + m.dist.replace = m.gt.length ∧
    m.dist.matchCount + m.dist.insert + m.dist.replace = m.ocr.length

/-- `q` is a fragment of `p`: same source line, nested offset range. -/
def SubpartOf (q p : Part) : Prop :=
  q.line = p.line ∧ p.start ≤ q.start ∧ q.endPos ≤ p.endPos

/-- Every part of a pool is non-empty (the pool invariant of the picker). -/
def AllNonempty (l : List Part) : Prop := ∀ p ∈ l, p.length ≠ 0

/-! ## Basic lemmas -/

/-- A `foldl` invariant principle. -/
theorem foldl_inv {α σ : Type} (P : σ → Prop) (f : σ → α → σ) :
    ∀ (l : List α) (s : σ), P s → (∀ s a, a ∈ l → P s → P (f s a)) → P (l.foldl f s)
  | [], s, hs, _ => hs
  | a :: l, s, hs, hstep =>
    foldl_inv P f l (f s a) (hstep s a (List.mem_cons_self a l) hs)
      (fun s' b hb => hstep s' b (List.mem_cons_of_mem a hb))

/-- `pick3` returns one of its three arguments. -/
theorem pick3_cases (r d i : ℕ × ℕ × ℕ) : pick3 r d i = r ∨ pick3 r d i = d ∨ pick3 r d i = i := by
  simp only [pick3]
  split <;> split <;> simp

/-- The count-validity predicate of a Levenshtein edit script for strings of
lengths `la` and `lb`. -/
def LevValid (la lb : ℕ) (t : ℕ × ℕ × ℕ) : Prop :=
  t.2.1 + t.2.2 ≤ la ∧ la + t.1 = lb + t.2.1

theorem levCountsGo_valid (x : Char) (a : List Char) (fa : List Char → ℕ × ℕ × ℕ)
    (hfa : ∀ b, LevValid a.length b.length (fa b)) :
    ∀ b, LevValid (a.length + 1) b.length (levCountsGo x a fa b)
  | [] => by simp [levCountsGo, LevValid]
  | y :: b => by
    have ih := levCountsGo_valid x a fa hfa b
    have h1 := hfa b
    have h2 := hfa (y :: b)
    simp only [LevValid, List.length_cons] at ih h1 h2 ⊢
    unfold levCountsGo
    split
    · omega
    · rcases pick3_cases ((fa b).1, (fa b).2.1, (fa b).2.2 + 1)
        ((fa (y :: b)).1, (fa (y :: b)).2.1 + 1, (fa (y :: b)).2.2)
        ((levCountsGo x a fa b).1 + 1, (levCountsGo x a fa b).2.1,
          (levCountsGo x a fa b).2.2) with h | h | h <;> simp only [h] <;> omega

/-- The modelled `editops` counts form a valid edit script: the deletes and
replaces fit in the first string, and lengths balance. -/
theorem levCounts_valid : ∀ a b : List Char, LevValid a.length b.length (levCounts a b)
  | [], b => by simp [levCounts, LevValid]
  | x :: a, b => levCountsGo_valid x a (levCounts a) (fun b' => levCounts_valid a b') b

/-- Equal strings need no edit operations. -/
theorem levCounts_self : ∀ a : List Char, levCounts a a = (0, 0, 0)
  | [] => rfl
  | x :: a => by simp [levCounts, levCountsGo, levCounts_self a]

/-- Erasing a string is pure deletion. -/
theorem levCounts_nil_right : ∀ a : List Char, levCounts a [] = (0, a.length, 0)
  | [] => rfl
  | _ :: _ => rfl

/-- Producing a string from nothing is pure insertion. -/
theorem levCounts_nil_left (b : List Char) : levCounts [] b = (b.length, 0, 0) := rfl

theorem distance_valid (g o : Part) : ValidMatch (distance g o) := by
  have h := levCounts_valid g.text o.text
  obtain ⟨h1, h2⟩ := h
  constructor <;> · simp [distance, Part.length] at *; omega

theorem distance_self (p : Part) : distance p p = ⟨p, p, ⟨0, 0, 0, p.length⟩⟩ := by
  simp [distance, levCounts_self, Part.length]

theorem distance_to_empty (g : Part) (ln st : ℕ) :
    distance g ⟨[], ln, st⟩ = ⟨g, ⟨[], ln, st⟩, ⟨0, g.length, 0, 0⟩⟩ := by
  simp [distance, levCounts_nil_right, Part.length]

theorem distance_from_empty (o : Part) (ln st : ℕ) :
    distance ⟨[], ln, st⟩ o = ⟨⟨[], ln, st⟩, o, ⟨o.length, 0, 0, 0⟩⟩ := by
  simp [distance, levCounts_nil_left, Part.length]

/-- Closed form of `character_accuracy` with the lets expanded. -/
theorem character_accuracy_eq (d : Distance) :
    character_accuracy d =
      if d.matchCount + d.replace + d.delete = 0 ∧ d.replace + d.delete + d.insert = 0 then 1
      else if d.matchCount + d.replace + d.delete = 0 then
        -((d.replace + d.delete + d.insert : ℕ) : ℚ)
      else 1 - ((d.replace + d.delete + d.insert : ℕ) : ℚ) /
        ((d.matchCount + d.replace + d.delete : ℕ) : ℚ) := rfl

/-- `character_accuracy` never exceeds `1`. -/
theorem character_accuracy_le_one (d : Distance) : character_accuracy d ≤ 1 := by
  rw [character_accuracy_eq]
  split
  · exact le_refl 1
  · split
    · have : (0 : ℚ) ≤ ((d.replace + d.delete + d.insert : ℕ) : ℚ) := by positivity
      linarith
    · next hc =>
      have hcq : (0 : ℚ) < ((d.matchCount + d.replace + d.delete : ℕ) : ℚ) := by
        have hne : d.matchCount + d.replace + d.delete ≠ 0 := hc
        exact_mod_cast Nat.pos_of_ne_zero hne
      have : (0 : ℚ) ≤ ((d.replace + d.delete + d.insert : ℕ) : ℚ) /
          ((d.matchCount + d.replace + d.delete : ℕ) : ℚ) :=
        div_nonneg (by positivity) (le_of_lt hcq)
      linarith

/-- `character_accuracy` is `1` exactly when there are no errors. -/
theorem character_accuracy_eq_one_iff (d : Distance) :
    character_accuracy d = 1 ↔ d.replace + d.delete + d.insert = 0 := by
  rw [character_accuracy_eq]
  split
  · next h => simp [h.2]
  · next h =>
    split
    · next hc =>
      have he : d.replace + d.delete + d.insert ≠ 0 := fun hz => h ⟨hc, hz⟩
      have hq : (0 : ℚ) ≤ ((d.replace + d.delete + d.insert : ℕ) : ℚ) := by positivity
      constructor
      · intro habs; linarith
      · intro hz; exact absurd hz he
    · next hc =>
      have hcq : (0 : ℚ) < ((d.matchCount + d.replace + d.delete : ℕ) : ℚ) := by
        have hne : d.matchCount + d.replace + d.delete ≠ 0 := hc
        exact_mod_cast Nat.pos_of_ne_zero hne
      constructor
      · intro h1
        have hdiv : ((d.replace + d.delete + d.insert : ℕ) : ℚ) /
            ((d.matchCount + d.replace + d.delete : ℕ) : ℚ) = 0 := by linarith
        have hnum : ((d.replace + d.delete + d.insert : ℕ) : ℚ) = 0 := by
          exact (div_eq_zero_iff.1 hdiv).resolve_right (ne_of_gt hcq)
        exact_mod_cast hnum
      · intro hz
        rw [hz]
        simp

/-- Zero aggregated errors give a perfect accuracy. -/
theorem character_accuracy_of_no_errors (d : Distance)
    (h : d.replace + d.delete + d.insert = 0) : character_accuracy d = 1 :=
  (character_accuracy_eq_one_iff d).2 h

/-! ## Part lemmas -/

theorem substring_line (p : Part) (i : ℕ) (e : Option ℕ) :
    (p.substring i e).line = p.line := rfl

theorem substring_start (p : Part) (i : ℕ) (e : Option ℕ) :
    (p.substring i e).start = p.start + i := rfl

theorem substring_length_some (p : Part) (i j : ℕ) :
    (p.substring i (some j)).length = min j p.length - i := by
  simp [Part.substring, pySlice, Part.length]

theorem substring_length_none (p : Part) (i : ℕ) :
    (p.substring i none).length = p.length - i := by
  simp [Part.substring, pySlice, Part.length]

theorem substring_full (p : Part) : p.substring 0 (some p.length) = p := by
  cases p with
  | mk t l s => simp [Part.substring, pySlice, Part.length]

theorem substring_subpart (p : Part) (i : ℕ) (e : Option ℕ) (h : i ≤ p.length) :
    SubpartOf (p.substring i e) p := by
  refine ⟨rfl, Nat.le_add_right _ _, ?_⟩
  cases e with
  | none =>
    simp only [Part.endPos, substring_start, substring_length_none]
    omega
  | some j =>
    simp only [Part.endPos, substring_start, substring_length_some]
    omega

theorem subpart_length_le {q p : Part} (h : SubpartOf q p) : q.length ≤ p.length := by
  obtain ⟨-, h1, h2⟩ := h
  simp only [Part.endPos] at h2
  omega

theorem subpart_refl (p : Part) : SubpartOf p p := ⟨rfl, le_refl _, le_refl _⟩

theorem subpart_empty (p : Part) : SubpartOf ⟨[], p.line, p.start⟩ p :=
  ⟨rfl, le_refl _, by simp [Part.endPos, Part.length]⟩

theorem sumLen_nil : sumLen [] = 0 := rfl

theorem sumLen_cons (p : Part) (l : List Part) : sumLen (p :: l) = p.length + sumLen l := by
  simp [sumLen]

theorem sumLen_append (l₁ l₂ : List Part) : sumLen (l₁ ++ l₂) = sumLen l₁ + sumLen l₂ := by
  simp [sumLen]

/-- The remainders of a split carry exactly the characters the match did not
consume. -/
theorem split_sum {q p : Part} (h : SubpartOf q p) :
    sumLen (p.split q) + q.length = p.length := by
  obtain ⟨-, h1, h2⟩ := h
  simp only [Part.endPos] at h2
  unfold Part.split
  by_cases hpre : p.start < q.start <;> by_cases hsuf : q.endPos < p.endPos <;>
    simp only [hpre, hsuf, if_pos, if_neg, ite_true, ite_false, not_true, not_false_iff] <;>
    simp [sumLen_append, sumLen_cons, sumLen_nil, substring_length_some,
      substring_length_none, Part.endPos] at * <;>
    omega

/-- Split remainders are non-empty. -/
theorem split_nonempty {q p : Part} (h : SubpartOf q p) :
    ∀ r ∈ p.split q, r.length ≠ 0 := by
  obtain ⟨-, h1, h2⟩ := h
  simp only [Part.endPos] at h2
  intro r hr
  unfold Part.split at hr
  rcases List.mem_append.1 hr with hm | hm <;> [skip; skip] <;>
  · split at hm <;> simp at hm
    next hcond =>
    subst hm
    simp [substring_length_some, substring_length_none, Part.endPos] at *
    omega

/-! ## Sorting lemmas -/

theorem insertDesc_perm (x : Part) :
    ∀ l : List Part, List.Perm (insertDesc x l) (x :: l)
  | [] => List.Perm.refl _
  | y :: ys => by
    unfold insertDesc
    split
    · exact ((insertDesc_perm x ys).cons y).trans (List.Perm.swap x y ys)
    · exact List.Perm.refl _

theorem sortDesc_perm : ∀ l : List Part, List.Perm (sortDesc l) l
  | [] => List.Perm.refl _
  | x :: xs => (insertDesc_perm x (sortDesc xs)).trans ((sortDesc_perm xs).cons x)

theorem sumLen_perm {l l' : List Part} (h : List.Perm l l') : sumLen l = sumLen l' :=
  (h.map Part.length).sum_eq

theorem sumLen_sortDesc (l : List Part) : sumLen (sortDesc l) = sumLen l :=
  sumLen_perm (sortDesc_perm l)

theorem mem_sortDesc {p : Part} {l : List Part} : p ∈ sortDesc l ↔ p ∈ l :=
  (sortDesc_perm l).mem_iff

theorem allNonempty_sortDesc {l : List Part} (h : AllNonempty l) :
    AllNonempty (sortDesc l) := fun p hp => h p (mem_sortDesc.1 hp)

theorem sumLen_erase {p : Part} {l : List Part} (h : p ∈ l) :
    sumLen (l.erase p) + p.length = sumLen l := by
  have h2 := sumLen_perm (List.perm_cons_erase h)
  rw [sumLen_cons] at h2
  omega

theorem allNonempty_erase {p : Part} {l : List Part} (h : AllNonempty l) :
    AllNonempty (l.erase p) := fun q hq => h q (List.mem_of_mem_erase hq)

/-- Non-empty lines only in an initialized pool. -/
theorem allNonempty_initialize_lines (t : List Char) : AllNonempty (initialize_lines t) := by
  intro p hp
  unfold initialize_lines at hp
  rw [mem_sortDesc] at hp
  simp only [List.mem_map, List.mem_filter] at hp
  obtain ⟨⟨i, s⟩, ⟨-, hne⟩, hmk⟩ := hp
  simp only [decide_eq_true_eq] at hne
  subst hmk
  exact hne

/-! ## Claim C10: `Part.substring` out-of-range behavior -/

/-- Claim C10, counterexample: `substring` with `rel_end` (or `rel_start`)
beyond `self.length` does not fail — it silently clamps like a Python slice
(the claim asserts a loud failure). -/
theorem substring_out_of_range_counterexample :
    Part.substring ⟨['a', 'b', 'c'], 0, 0⟩ 0 (some 5) = ⟨['a', 'b', 'c'], 0, 0⟩ ∧
      Part.substring ⟨['a', 'b', 'c'], 0, 0⟩ 4 (some 5) = ⟨[], 0, 4⟩ := by
  constructor <;> rfl

/-- Claim C10, amended: `Part.substring` is total on out-of-range bounds and
silently clamps (Python slice semantics): a `rel_end` past the length behaves
exactly like "to the end", a `rel_start` past the length yields empty text,
and the start offset is `self.start + rel_start` regardless. -/
theorem substring_clamps (p : Part) (s e : ℕ) (he : p.length ≤ e) :
    p.substring s (some e) = p.substring s none ∧
      (p.length ≤ s → (p.substring s (some e)).text = []) ∧
      (p.substring s (some e)).start = p.start + s := by
  refine ⟨?_, ?_, rfl⟩
  · cases p with
    | mk t l st =>
      simp only [Part.substring, pySlice]
      rw [List.take_of_length_le (by simpa [Part.length] using he)]
  · intro hs
    simp only [Part.substring, pySlice]
    rw [List.drop_eq_nil_of_le]
    simp only [List.length_take]
    exact le_trans (min_le_right _ _) hs

/-- Witness for `substring_clamps` at a concrete part. -/
theorem substring_clamps_witness :
    (⟨['a', 'b', 'c'], 0, 0⟩ : Part).length ≤ 5 ∧
      ((⟨['a', 'b', 'c'], 0, 0⟩ : Part).substring 4 (some 5) =
          (⟨['a', 'b', 'c'], 0, 0⟩ : Part).substring 4 none ∧
        ((⟨['a', 'b', 'c'], 0, 0⟩ : Part).length ≤ 4 →
          ((⟨['a', 'b', 'c'], 0, 0⟩ : Part).substring 4 (some 5)).text = []) ∧
        ((⟨['a', 'b', 'c'], 0, 0⟩ : Part).substring 4 (some 5)).start =
          (⟨['a', 'b', 'c'], 0, 0⟩ : Part).start + 4) :=
  ⟨by decide, substring_clamps ⟨['a', 'b', 'c'], 0, 0⟩ 4 5 (by decide)⟩

/-! ## Claim C9: totality of `match_lines` on non-empty parts -/

theorem ite_ltEditOpt_ne_none (e : ℕ) (x : ℕ × Match × ℕ × ℕ)
    (st : Option (ℕ × Match × ℕ × ℕ)) :
    (if ltEditOpt e st then some x else st).map (fun s => s.2.1) ≠ none := by
  cases st with
  | none => simp [ltEditOpt]
  | some s => split <;> simp

theorem match_lines_isSome (g o : Part) (h : min g.length o.length ≠ 0) :
    match_lines g o ≠ none := by
  simp only [match_lines]
  rw [if_neg h]
  exact ite_ltEditOpt_ne_none _ _ _

/-- Claim C9: `match_lines` returns no match exactly when one side is empty;
on two non-empty parts it always returns a match (the pure-deletion fallback
guarantees a candidate). -/
theorem match_lines_none_iff (g o : Part) :
    match_lines g o = none ↔ min g.length o.length = 0 := by
  constructor
  · intro hnone
    by_contra h
    exact match_lines_isSome g o h hnone
  · intro h
    simp [match_lines, h]

/-! ## Structure of the matches produced by `match_lines` -/

/-- Invariant of the candidate state of `match_lines`. -/
def MLInv (g o : Part) (st : Option (ℕ × Match × ℕ × ℕ)) : Prop :=
  ∀ e m i j, st = some (e, m, i, j) →
    ValidMatch m ∧ SubpartOf m.gt g ∧ SubpartOf m.ocr o ∧ 1 ≤ m.gt.length ∧
      i < g.length ∧ j < o.length

/-- Members of a slide-candidate list are in-range substrings or the full
line at index `0`. -/
theorem mem_slideParts {p : Part} {m n : ℕ} {i : ℕ} {q : Part}
    (hmem : (i, q) ∈ (List.range n).map
        (fun i => (i, p.substring i (some (i + m)))) ++ [(0, p)]) :
    (i < n ∧ q = p.substring i (some (i + m))) ∨ (i = 0 ∧ q = p) := by
  rcases List.mem_append.1 hmem with hm' | hm'
  · obtain ⟨k, hk, heq⟩ := List.mem_map.1 hm'
    obtain ⟨h1, h2⟩ := Prod.ext_iff.1 heq
    dsimp only at h1 h2
    subst h1
    exact Or.inl ⟨List.mem_range.1 hk, h2.symm⟩
  · simp only [List.mem_singleton] at hm'
    obtain ⟨h1, h2⟩ := Prod.ext_iff.1 hm'
    exact Or.inr ⟨h1, h2⟩

/-- Range bound for the GT slide candidates. -/
theorem slide_range_bound_gt (g o : Part) (h : min g.length o.length ≠ 0) :
    ∀ k < (max 1 ((g.length : ℤ) - (o.length : ℤ) + 1)).toNat,
      k + min g.length o.length ≤ g.length := by
  intro k hk
  have hk' : (k : ℤ) < max 1 ((g.length : ℤ) - (o.length : ℤ) + 1) := Int.lt_toNat.1 hk
  omega

/-- Range bound for the OCR slide candidates. -/
theorem slide_range_bound_ocr (g o : Part) (h : min g.length o.length ≠ 0) :
    ∀ k < (max 1 (-((g.length : ℤ) - (o.length : ℤ)) + 1)).toNat,
      k + min g.length o.length ≤ o.length := by
  intro k hk
  have hk' : (k : ℤ) < max 1 (-((g.length : ℤ) - (o.length : ℤ)) + 1) := Int.lt_toNat.1 hk
  omega

/-- A GT slide candidate is a non-empty in-range fragment. -/
theorem gtSlideParts_props {g o : Part} {i : ℕ} {q : Part} (h : min g.length o.length ≠ 0)
    (hmem : (i, q) ∈ gtSlideParts g (min g.length o.length)
      ((g.length : ℤ) - (o.length : ℤ))) :
    SubpartOf q g ∧ 1 ≤ q.length ∧ i < g.length := by
  have hm : 1 ≤ min g.length o.length := Nat.pos_of_ne_zero h
  rcases mem_slideParts (hmem : _ ∈ _ ++ _) with ⟨hi, hq⟩ | ⟨hi, hq⟩
  · have hbound := slide_range_bound_gt g o h i hi
    subst hq
    refine ⟨substring_subpart g i _ (by omega), ?_, by omega⟩
    rw [substring_length_some]
    omega
  · subst hi; subst hq
    exact ⟨subpart_refl _, by omega, by omega⟩

/-- An OCR slide candidate is an in-range fragment with in-range index. -/
theorem ocrSlideParts_props {g o : Part} {j : ℕ} {q : Part} (h : min g.length o.length ≠ 0)
    (hmem : (j, q) ∈ ocrSlideParts o (min g.length o.length)
      ((g.length : ℤ) - (o.length : ℤ))) :
    SubpartOf q o ∧ j < o.length := by
  have hm : 1 ≤ min g.length o.length := Nat.pos_of_ne_zero h
  rcases mem_slideParts (hmem : _ ∈ _ ++ _) with ⟨hj, hq⟩ | ⟨hj, hq⟩
  · have hbound := slide_range_bound_ocr g o h j hj
    subst hq
    exact ⟨substring_subpart o j _ (by omega), by omega⟩
  · subst hj; subst hq
    exact ⟨subpart_refl _, by omega⟩

theorem mlStep_inv (g o : Part) (minLength : ℕ)
    (st : Option (ℕ × Match × ℕ × ℕ)) (pr : (ℕ × Part) × (ℕ × Part))
    (hgt : SubpartOf pr.1.2 g ∧ 1 ≤ pr.1.2.length ∧ pr.1.1 < g.length)
    (hocr : SubpartOf pr.2.2 o ∧ pr.2.1 < o.length)
    (hst : MLInv g o st) : MLInv g o (mlStep minLength st pr) := by
  simp only [mlStep]
  split
  · intro e m i j hsome
    injection hsome with h2
    obtain ⟨-, h2⟩ := Prod.ext_iff.1 h2
    obtain ⟨hm, h3⟩ := Prod.ext_iff.1 h2
    obtain ⟨hi, hj⟩ := Prod.ext_iff.1 h3
    dsimp only at hm hi hj
    subst hm hi hj
    exact ⟨distance_valid _ _, hgt.1, hocr.1, hgt.2.1, hgt.2.2, hocr.2⟩
  · exact hst

/-- One elongation step preserves validity and fragment containment. -/
theorem elongStep_inv (g o : Part) (minLength i j : ℕ) (hi : i < g.length)
    (hj : j < o.length) (s : ℕ × Match) (k : ℕ) (hk : 1 ≤ k)
    (hs : ValidMatch s.2 ∧ SubpartOf s.2.gt g ∧ SubpartOf s.2.ocr o ∧ 1 ≤ s.2.gt.length) :
    let s' := elongStep g o minLength i j s k
    ValidMatch s'.2 ∧ SubpartOf s'.2.gt g ∧ SubpartOf s'.2.ocr o ∧ 1 ≤ s'.2.gt.length := by
  simp only [elongStep]
  split
  · refine ⟨distance_valid _ _, substring_subpart g i _ (by omega),
      substring_subpart o j _ (by omega), ?_⟩
    have hgt : (distance (g.substring i (some (i + k)))
        (o.substring j (some (j + k)))).gt = g.substring i (some (i + k)) := rfl
    rw [hgt, substring_length_some]
    omega
  · exact hs

/-- The elongation pass preserves the invariant. -/
theorem mlElongate_inv (g o : Part) (minLength : ℕ)
    (st : Option (ℕ × Match × ℕ × ℕ)) (hst : MLInv g o st) :
    MLInv g o (mlElongate g o minLength st) := by
  cases st with
  | none => exact hst
  | some t =>
    obtain ⟨e, m, i, j⟩ := t
    have hprops := hst e m i j rfl
    show MLInv g o (mlElongate g o minLength (some (e, m, i, j)))
    simp only [mlElongate]
    split
    · have hfold := foldl_inv
        (fun (s : ℕ × Match) => ValidMatch s.2 ∧ SubpartOf s.2.gt g ∧
          SubpartOf s.2.ocr o ∧ 1 ≤ s.2.gt.length)
        (elongStep g o minLength i j)
        (List.range' (m.gt.length + 1) (m.dist.delete + m.dist.replace)) (e, m)
        ⟨hprops.1, hprops.2.1, hprops.2.2.1, hprops.2.2.2.1⟩
        (fun s k hk hs => elongStep_inv g o minLength i j hprops.2.2.2.2.1
          hprops.2.2.2.2.2 s k (by
            have := List.mem_range'.1 hk
            omega) hs)
      intro e' m' i' j' hsome
      injection hsome with h2
      obtain ⟨-, h2⟩ := Prod.ext_iff.1 h2
      obtain ⟨hm', h3⟩ := Prod.ext_iff.1 h2
      obtain ⟨hi', hj'⟩ := Prod.ext_iff.1 h3
      dsimp only at hm' hi' hj'
      subst hm' hi' hj'
      exact ⟨hfold.1, hfold.2.1, hfold.2.2.1, hfold.2.2.2,
        hprops.2.2.2.2.1, hprops.2.2.2.2.2⟩
    · intro e' m' i' j' hsome
      injection hsome with h2
      obtain ⟨-, h2⟩ := Prod.ext_iff.1 h2
      obtain ⟨hm', h3⟩ := Prod.ext_iff.1 h2
      obtain ⟨hi', hj'⟩ := Prod.ext_iff.1 h3
      dsimp only at hm' hi' hj'
      subst hm' hi' hj'
      exact hprops

/-- Every match returned by `match_lines` satisfies the counter invariants,
aligns fragments of the two inputs, and has a non-empty GT side. -/
theorem match_lines_spec (g o : Part) (m : Match) (h : match_lines g o = some m) :
    ValidMatch m ∧ SubpartOf m.gt g ∧ SubpartOf m.ocr o ∧ 1 ≤ m.gt.length := by
  by_cases hmin : min g.length o.length = 0
  · rw [(match_lines_none_iff g o).2 hmin] at h
    exact absurd h (by simp)
  · simp only [match_lines] at h
    rw [if_neg hmin] at h
    have hst1 : MLInv g o (((gtSlideParts g (min g.length o.length)
        ((g.length : ℤ) - (o.length : ℤ))).flatMap
          (fun gp => (ocrSlideParts o (min g.length o.length)
            ((g.length : ℤ) - (o.length : ℤ))).map (fun op => (gp, op)))).foldl
        (mlStep (min g.length o.length)) none) := by
      apply foldl_inv (MLInv g o)
      · intro e m' i j hsome; exact absurd hsome (by simp)
      · intro st pr hpr hst
        obtain ⟨gp, hgp, hpr2⟩ := List.mem_flatMap.1 hpr
        obtain ⟨op, hop, heq⟩ := List.mem_map.1 hpr2
        subst heq
        obtain ⟨gi, gq⟩ := gp
        obtain ⟨oi, oq⟩ := op
        have hgprops := gtSlideParts_props hmin hgp
        have hoprops := ocrSlideParts_props hmin hop
        exact mlStep_inv g o _ st _ hgprops hoprops hst
    have hst2 := mlElongate_inv g o (min g.length o.length) _ hst1
    revert h hst2
    generalize mlElongate g o (min g.length o.length)
      (((gtSlideParts g (min g.length o.length)
        ((g.length : ℤ) - (o.length : ℤ))).flatMap
          (fun gp => (ocrSlideParts o (min g.length o.length)
            ((g.length : ℤ) - (o.length : ℤ))).map (fun op => (gp, op)))).foldl
        (mlStep (min g.length o.length)) none) = st2
    intro h hst2
    by_cases hcond : ltEditOpt (score_edit_distance
        (distance g ⟨[], o.line, o.start⟩).dist) st2 = true
    · rw [if_pos hcond] at h
      simp only [Option.map] at h
      injection h with h
      subst h
      refine ⟨distance_valid _ _, subpart_refl g, subpart_empty o, ?_⟩
      have hgt : (distance g ⟨[], o.line, o.start⟩).gt = g := rfl
      rw [hgt]
      omega
    · rw [if_neg hcond] at h
      cases hst2' : st2 with
      | none => rw [hst2'] at h; exact absurd h (by simp)
      | some t =>
        obtain ⟨e, m', i, j⟩ := t
        rw [hst2'] at h
        simp only [Option.map] at h
        injection h with h
        subst h
        have hp := hst2 e m' i j hst2'
        exact ⟨hp.1, hp.2.1, hp.2.2.1, hp.2.2.2.1⟩

/-! ## `match_gt_line`: existence and minimality -/

/-- The penalty the picker attributes to aligning `g` with `o` via `m`. -/
def penaltyOf (g o : Part) (m : Match) (coef : Coefficients) : ℚ :=
  calculate_penalty g.length o.length g.start o.start m.gt.start m.ocr.start m.dist coef

/-- The running minimum of `match_gt_line` only improves, always comes from
the scanned OCR lines, and ends below every candidate's penalty. -/
theorem mglFold_spec (g : Part) (coef : Coefficients) :
    ∀ (l : List Part) (st : Option (ℚ × Match × Part)) (r : ℚ × Match × Part),
      l.foldl (mglStep g coef) st = some r →
      (st = some r ∨ (r.2.2 ∈ l ∧ match_lines g r.2.2 = some r.2.1 ∧
        r.1 = penaltyOf g r.2.2 r.2.1 coef)) ∧
      (∀ o' ∈ l, ∀ m', match_lines g o' = some m' → r.1 ≤ penaltyOf g o' m' coef) ∧
      (∀ p₀ m₀ o₀, st = some (p₀, m₀, o₀) → r.1 ≤ p₀)
  | [], st, r => by
    intro h
    refine ⟨Or.inl h, by simp, ?_⟩
    intro p₀ m₀ o₀ hst
    rw [hst] at h
    injection h with h
    rw [← h]
  | o :: l, st, r => by
    intro h
    rw [List.foldl_cons] at h
    have ih := mglFold_spec g coef l (mglStep g coef st o) r h
    have hstep : mglStep g coef st o = st ∨
        (∃ m, match_lines g o = some m ∧
          mglStep g coef st o = some (penaltyOf g o m coef, m, o) ∧
          ltPenOpt (penaltyOf g o m coef) st = true) := by
      unfold mglStep
      cases hml : match_lines g o with
      | none => exact Or.inl rfl
      | some m =>
        dsimp only
        by_cases hlt : ltPenOpt (calculate_penalty g.length o.length g.start o.start
            m.gt.start m.ocr.start m.dist coef) st = true
        · rw [if_pos hlt]
          exact Or.inr ⟨m, rfl, rfl, hlt⟩
        · rw [Bool.not_eq_true] at hlt
          left
          rw [hlt]
          simp
    constructor
    · rcases hstep with heq | ⟨m, hml, heq, -⟩
      · rw [heq] at ih
        rcases ih.1 with h1 | h1
        · exact Or.inl h1
        · exact Or.inr ⟨List.mem_cons_of_mem o h1.1, h1.2.1, h1.2.2⟩
      · rw [heq] at ih
        rcases ih.1 with h1 | h1
        · injection h1.symm with h1
          rw [h1]
          exact Or.inr ⟨List.mem_cons_self o l, by simpa using hml, rfl⟩
        · exact Or.inr ⟨List.mem_cons_of_mem o h1.1, h1.2.1, h1.2.2⟩
    constructor
    · intro o' ho' m' hm'
      rcases List.mem_cons.1 ho' with ho'' | ho''
      · subst ho''
        rcases hstep with heq | ⟨m, hml, heq, hlt⟩
        · -- the step did not update: either no match (contradiction) or not better
          rw [heq] at ih
          unfold mglStep at heq
          rw [hm'] at heq
          dsimp only at heq
          by_cases hlt : ltPenOpt (calculate_penalty g.length o'.length g.start o'.start
              m'.gt.start m'.ocr.start m'.dist coef) st = true
          · rw [if_pos hlt] at heq
            -- st was replaced by the candidate, so st = some candidate
            rw [← heq] at ih
            exact ih.2.2 _ _ _ rfl
          · rw [Bool.not_eq_true] at hlt
            cases hst : st with
            | none => rw [hst] at hlt; simp [ltPenOpt] at hlt
            | some s₀ =>
              obtain ⟨p₀, m₀, o₀⟩ := s₀
              have hle : penaltyOf g o' m' coef ≥ p₀ := by
                rw [hst] at hlt
                simp [ltPenOpt, penaltyOf] at hlt ⊢
                exact hlt
              have := ih.2.2 p₀ m₀ o₀ hst
              exact le_trans this hle
        · rw [hml] at hm'
          injection hm' with hm''
          subst hm''
          rw [heq] at ih
          exact ih.2.2 _ _ _ rfl
      · exact ih.2.1 o' ho'' m' hm'
    · intro p₀ m₀ o₀ hst
      rcases hstep with heq | ⟨m, hml, heq, hlt⟩
      · rw [heq, hst] at ih
        exact ih.2.2 p₀ m₀ o₀ rfl
      · rw [heq] at ih
        have hr := ih.2.2 _ _ _ rfl
        rw [hst] at hlt
        simp only [ltPenOpt, decide_eq_true_eq] at hlt
        exact le_trans hr (le_of_lt hlt)

/-- `mglStep` never discards an existing candidate. -/
theorem mglStep_isSome (g : Part) (coef : Coefficients) (st : Option (ℚ × Match × Part))
    (o : Part) (h : st.isSome) : (mglStep g coef st o).isSome := by
  unfold mglStep
  cases hml : match_lines g o with
  | none => exact h
  | some m =>
    dsimp only
    split
    · simp
    · exact h

/-- `match_gt_line` finds a partner whenever the pools are non-empty and
non-degenerate. -/
theorem match_gt_line_isSome (g : Part) (coef : Coefficients) (o0 : Part)
    (rest : List Part) (hg : g.length ≠ 0) (ho0 : o0.length ≠ 0) :
    ∃ m o, match_gt_line g (o0 :: rest) coef = (some m, some o) := by
  have hmin : min g.length o0.length ≠ 0 := by omega
  have hfirst : (mglStep g coef none o0).isSome := by
    unfold mglStep
    cases hml : match_lines g o0 with
    | none => exact absurd hml (match_lines_isSome g o0 hmin)
    | some m =>
      dsimp only
      rw [if_pos (show ltPenOpt _ none = true from rfl)]
      simp
  have hfold : ((o0 :: rest).foldl (mglStep g coef) none).isSome := by
    rw [List.foldl_cons]
    exact foldl_inv (fun st => st.isSome) (mglStep g coef) rest _ hfirst
      (fun st a _ h => mglStep_isSome g coef st a h)
  unfold match_gt_line
  cases hf : (o0 :: rest).foldl (mglStep g coef) none with
  | none => rw [hf] at hfold; exact absurd hfold (by simp)
  | some r =>
    obtain ⟨p, m, o⟩ := r
    exact ⟨m, o, rfl⟩

/-- What a successful `match_gt_line` returns: an OCR pool member, the
alignment `match_lines` produced for it, and the minimal penalty over every
alignable pool member. -/
theorem match_gt_line_spec (g : Part) (ocr_lines : List Part) (coef : Coefficients)
    (m : Match) (o : Part) (h : match_gt_line g ocr_lines coef = (some m, some o)) :
    o ∈ ocr_lines ∧ match_lines g o = some m ∧
      ∀ o' ∈ ocr_lines, ∀ m', match_lines g o' = some m' →
        penaltyOf g o m coef ≤ penaltyOf g o' m' coef := by
  unfold match_gt_line at h
  cases hf : ocr_lines.foldl (mglStep g coef) none with
  | none => rw [hf] at h; exact absurd h (by simp)
  | some r =>
    obtain ⟨p, m', o'⟩ := r
    rw [hf] at h
    have hs := mglFold_spec g coef ocr_lines none (p, m', o') hf
    injection h with h1 h2
    injection h1 with h1
    injection h2 with h2
    subst h1
    subst h2
    rcases hs.1 with habs | hr
    · exact absurd habs (by simp)
    · refine ⟨hr.1, hr.2.1, ?_⟩
      intro o'' ho'' m'' hm''
      have := hs.2.1 o'' ho'' m'' hm''
      rw [← hr.2.2]
      exact this

/-! ## `mlglGo`: existence and the accuracy-maximum characterization -/

/-- `mlglStep` never discards an existing candidate. -/
theorem mlglStep_isSome (ocr_lines : List Part) (coef : Coefficients)
    (st : Option (ℚ × Match × Part × Part)) (g : Part) (h : st.isSome) :
    (mlglStep ocr_lines coef st g).isSome := by
  unfold mlglStep
  rcases hmg : match_gt_line g ocr_lines coef with ⟨mm, oo⟩
  cases mm with
  | none => cases oo <;> exact h
  | some m =>
    cases oo with
    | none => exact h
    | some o =>
      dsimp only
      split
      · simp
      · exact h

/-- Case analysis of one step of the candidate loop. -/
theorem mlglStep_characterize (ocr_lines : List Part) (coef : Coefficients)
    (st : Option (ℚ × Match × Part × Part)) (g : Part) :
    (mlglStep ocr_lines coef st g = st ∧
      (∀ m' o', match_gt_line g ocr_lines coef = (some m', some o') →
        gtScoreOpt (character_accuracy m'.dist) st = false)) ∨
    (∃ m o, match_gt_line g ocr_lines coef = (some m, some o) ∧
      gtScoreOpt (character_accuracy m.dist) st = true ∧
      mlglStep ocr_lines coef st g = some (character_accuracy m.dist, m, g, o)) := by
  rcases hmg : match_gt_line g ocr_lines coef with ⟨mm, oo⟩
  cases mm with
  | none =>
    left
    refine ⟨by unfold mlglStep; rw [hmg], ?_⟩
    intro m' o' hh
    exact absurd (congrArg Prod.fst hh) (by simp)
  | some m =>
    cases oo with
    | none =>
      left
      refine ⟨by unfold mlglStep; rw [hmg], ?_⟩
      intro m' o' hh
      exact absurd (congrArg Prod.snd hh) (by simp)
    | some o =>
      by_cases hgt : gtScoreOpt (character_accuracy m.dist) st = true
      · right
        exact ⟨m, o, rfl, hgt, by unfold mlglStep; rw [hmg]; dsimp only; rw [if_pos hgt]⟩
      · left
        have hgt' : gtScoreOpt (character_accuracy m.dist) st = false := by
          revert hgt; cases gtScoreOpt (character_accuracy m.dist) st <;> simp
        refine ⟨by unfold mlglStep; rw [hmg]; dsimp only; rw [hgt']; simp, ?_⟩
        intro m' o' hh
        obtain ⟨h1, h2⟩ := Prod.ext_iff.1 hh
        injection h1 with h1
        subst h1
        exact hgt'

/-- `mlglGo` never discards an existing candidate. -/
theorem mlglGo_some_preserved (ocr_lines : List Part) (coef : Coefficients) :
    ∀ (l : List Part) (st : Option (ℚ × Match × Part × Part)), st.isSome →
      (mlglGo ocr_lines coef l st).isSome
  | [], _, h => h
  | g :: gs, st, h => by
    have hst' := mlglStep_isSome ocr_lines coef st g h
    simp only [mlglGo]
    split
    · exact hst'
    · exact mlglGo_some_preserved ocr_lines coef gs _ hst'

/-- The result of `mlglGo`: where the committed candidate comes from, and
either the early break fired at a perfect accuracy or the committed match
maximizes the character accuracy over all scanned candidates. -/
theorem mlglGo_spec (ocr_lines : List Part) (coef : Coefficients) :
    ∀ (l : List Part) (st : Option (ℚ × Match × Part × Part))
      (r : ℚ × Match × Part × Part),
      mlglGo ocr_lines coef l st = some r →
      (st = some r ∨ (r.2.2.1 ∈ l ∧
        match_gt_line r.2.2.1 ocr_lines coef = (some r.2.1, some r.2.2.2) ∧
        r.1 = character_accuracy r.2.1.dist)) ∧
      ((1 : ℚ) ≤ r.1 ∨
        ((∀ g ∈ l, ∀ m' o', match_gt_line g ocr_lines coef = (some m', some o') →
          character_accuracy m'.dist ≤ r.1) ∧
         (∀ s₀, st = some s₀ → s₀.1 ≤ r.1)))
  | [], st, r => by
    intro h
    refine ⟨Or.inl h, Or.inr ⟨by simp, ?_⟩⟩
    intro s₀ hst
    rw [hst] at h
    injection h with h
    rw [← h]
  | g :: gs, st, r => by
    intro h
    simp only [mlglGo] at h
    have hupd :
        (mlglStep ocr_lines coef st g = some r ∨ (r.2.2.1 ∈ gs ∧
          match_gt_line r.2.2.1 ocr_lines coef = (some r.2.1, some r.2.2.2) ∧
          r.1 = character_accuracy r.2.1.dist)) ∧
        ((1 : ℚ) ≤ r.1 ∨
          ((∀ g' ∈ gs, ∀ m' o', match_gt_line g' ocr_lines coef = (some m', some o') →
            character_accuracy m'.dist ≤ r.1) ∧
           (∀ s₀, mlglStep ocr_lines coef st g = some s₀ → s₀.1 ≤ r.1))) := by
      by_cases hge : geOneOpt (mlglStep ocr_lines coef st g) = true
      · rw [if_pos hge] at h
        refine ⟨Or.inl h, Or.inl ?_⟩
        rw [h] at hge
        simpa [geOneOpt] using hge
      · rw [Bool.not_eq_true] at hge
        rw [hge] at h
        simp only [Bool.false_eq_true, if_false] at h
        exact mlglGo_spec ocr_lines coef gs _ r h
    rcases mlglStep_characterize ocr_lines coef st g with ⟨heq, hfalse⟩ | ⟨m, o, hmg, hgt, heq⟩
    · rw [heq] at hupd
      refine ⟨?_, ?_⟩
      · rcases hupd.1 with h1 | h1
        · exact Or.inl h1
        · exact Or.inr ⟨List.mem_cons_of_mem g h1.1, h1.2.1, h1.2.2⟩
      · rcases hupd.2 with h2 | h2
        · exact Or.inl h2
        · refine Or.inr ⟨?_, h2.2⟩
          intro g' hg' m' o' hmg'
          rcases List.mem_cons.1 hg' with hgg | hgg
          · subst hgg
            have hf := hfalse m' o' hmg'
            cases hst : st with
            | none => rw [hst] at hf; simp [gtScoreOpt] at hf
            | some s₀ =>
              rw [hst] at hf
              simp only [gtScoreOpt, decide_eq_true_eq] at hf
              have hle : character_accuracy m'.dist ≤ s₀.1 := by
                by_contra hcon
                push_neg at hcon
                simp [hcon] at hf
              exact le_trans hle (h2.2 s₀ (by rw [hst]))
          · exact h2.1 g' hgg m' o' hmg'
    · rw [heq] at hupd
      refine ⟨?_, ?_⟩
      · rcases hupd.1 with h1 | h1
        · injection h1.symm with h1
          rw [h1]
          exact Or.inr ⟨List.mem_cons_self g gs, by simpa using hmg, rfl⟩
        · exact Or.inr ⟨List.mem_cons_of_mem g h1.1, h1.2.1, h1.2.2⟩
      · rcases hupd.2 with h2 | h2
        · exact Or.inl h2
        · refine Or.inr ⟨?_, ?_⟩
          · intro g' hg' m' o' hmg'
            rcases List.mem_cons.1 hg' with hgg | hgg
            · subst hgg
              rw [hmg] at hmg'
              obtain ⟨e1, -⟩ := Prod.ext_iff.1 hmg'
              injection e1 with e1
              subst e1
              exact h2.2 _ rfl
            · exact h2.1 g' hgg m' o' hmg'
          · intro s₀ hs₀
            have hub := h2.2 _ rfl
            rw [hs₀] at hgt
            simp only [gtScoreOpt, decide_eq_true_eq] at hgt
            exact le_trans (le_of_lt hgt) hub

/-! ## `remove_or_split` and the progress of one picker step -/

/-- `remove_or_split` removes exactly the matched characters from the pool
and keeps every remaining part non-empty. -/
theorem remove_or_split_spec {orig q : Part} {lines : List Part}
    (horig : orig ∈ lines) (hsub : SubpartOf q orig) :
    sumLen (remove_or_split orig q lines).1 + q.length = sumLen lines ∧
      (AllNonempty lines → AllNonempty (remove_or_split orig q lines).1) := by
  have hql := subpart_length_le hsub
  have he := sumLen_erase horig
  unfold remove_or_split
  by_cases hlt : q.length < orig.length
  · rw [if_pos hlt]
    dsimp only
    constructor
    · rw [sumLen_sortDesc, sumLen_append]
      have hs := split_sum hsub
      omega
    · intro hall
      apply allNonempty_sortDesc
      intro p hp
      rcases List.mem_append.1 hp with hm | hm
      · exact allNonempty_erase hall p hm
      · exact split_nonempty hsub p hm
  · rw [if_neg hlt]
    dsimp only
    constructor
    · omega
    · intro hall; exact allNonempty_erase hall

/-- Unfolding equation of `match_longest_gt_lines` on two non-empty pools. -/
theorem match_longest_gt_lines_cons (g0 : Part) (gs : List Part) (o0 : Part)
    (os : List Part) (coef : Coefficients) :
    match_longest_gt_lines (g0 :: gs) (o0 :: os) coef =
      (match mlglGo (o0 :: os) coef ((g0 :: gs).takeWhile (fun l : Part =>
          decide (((min g0.length o0.length : ℕ) : ℤ) - 1 < (l.length : ℤ)))) none with
        | none => (none, g0 :: gs, o0 :: os)
        | some (_, m, bg, bo) =>
          (some m, (remove_or_split bg m.gt (g0 :: gs)).1,
            (remove_or_split bo m.ocr (o0 :: os)).1)) := rfl

/-- One step of the picker on non-empty pools always commits a match whose
GT side is non-empty, and removes exactly the matched characters from each
pool while keeping the pool parts non-empty. -/
theorem match_longest_gt_lines_progress (g0 : Part) (gs : List Part) (o0 : Part)
    (os : List Part) (coef : Coefficients)
    (hgall : AllNonempty (g0 :: gs)) (hoall : AllNonempty (o0 :: os)) :
    ∃ m g' o', match_longest_gt_lines (g0 :: gs) (o0 :: os) coef = (some m, g', o') ∧
      ValidMatch m ∧ 1 ≤ m.gt.length ∧
      sumLen g' + m.gt.length = sumLen (g0 :: gs) ∧
      sumLen o' + m.ocr.length = sumLen (o0 :: os) ∧
      AllNonempty g' ∧ AllNonempty o' := by
  have hg0 : g0.length ≠ 0 := hgall g0 (List.mem_cons_self g0 gs)
  have ho0 : o0.length ≠ 0 := hoall o0 (List.mem_cons_self o0 os)
  have hpred : decide (((min g0.length o0.length : ℕ) : ℤ) - 1 < (g0.length : ℤ)) = true := by
    simp only [decide_eq_true_eq]
    omega
  have hcand : (g0 :: gs).takeWhile (fun l : Part =>
        decide (((min g0.length o0.length : ℕ) : ℤ) - 1 < (l.length : ℤ))) =
      g0 :: gs.takeWhile (fun l : Part =>
        decide (((min g0.length o0.length : ℕ) : ℤ) - 1 < (l.length : ℤ))) := by
    rw [List.takeWhile_cons, hpred]
    rfl
  have hfirst : (mlglStep (o0 :: os) coef none g0).isSome := by
    obtain ⟨m, o, hmg⟩ := match_gt_line_isSome g0 coef o0 os hg0 ho0
    unfold mlglStep
    rw [hmg]
    dsimp only
    rw [if_pos (show gtScoreOpt _ none = true from rfl)]
    simp
  have hsome : (mlglGo (o0 :: os) coef ((g0 :: gs).takeWhile (fun l : Part =>
      decide (((min g0.length o0.length : ℕ) : ℤ) - 1 < (l.length : ℤ)))) none).isSome := by
    rw [hcand]
    simp only [mlglGo]
    split
    · exact hfirst
    · exact mlglGo_some_preserved (o0 :: os) coef _ _ hfirst
  obtain ⟨r, hr⟩ := Option.isSome_iff_exists.1 hsome
  obtain ⟨s, m, bg, bo⟩ := r
  have hspec := mlglGo_spec (o0 :: os) coef _ none (s, m, bg, bo) hr
  rcases hspec.1 with habs | ⟨hbgmem, hmg, -⟩
  · exact absurd habs (by simp)
  · have hbg : bg ∈ g0 :: gs :=
      (List.takeWhile_sublist (l := g0 :: gs) (fun l : Part =>
        decide (((min g0.length o0.length : ℕ) : ℤ) - 1 < (l.length : ℤ)))).subset hbgmem
    have hmgs := match_gt_line_spec bg (o0 :: os) coef m bo hmg
    have hmls := match_lines_spec bg bo m hmgs.2.1
    have hbo : bo ∈ o0 :: os := hmgs.1
    have hrsg := remove_or_split_spec hbg hmls.2.1
    have hrso := remove_or_split_spec hbo hmls.2.2.1
    refine ⟨m, (remove_or_split bg m.gt (g0 :: gs)).1,
      (remove_or_split bo m.ocr (o0 :: os)).1, ?_, hmls.1, hmls.2.2.2, ?_, ?_, ?_, ?_⟩
    · rw [match_longest_gt_lines_cons, hr]
    · exact hrsg.1
    · exact hrso.1
    · exact hrsg.2 hgall
    · exact hrso.2 hoall

/-! ## The picker loop -/

/-- Total GT characters of the matches of a list. -/
def gtLenOf (ms : List Match) : ℕ := (ms.map (fun m => m.gt.length)).sum

/-- Total OCR characters of the matches of a list. -/
def ocrLenOf (ms : List Match) : ℕ := (ms.map (fun m => m.ocr.length)).sum

theorem gtLenOf_append (ms₁ ms₂ : List Match) :
    gtLenOf (ms₁ ++ ms₂) = gtLenOf ms₁ + gtLenOf ms₂ := by simp [gtLenOf]

theorem ocrLenOf_append (ms₁ ms₂ : List Match) :
    ocrLenOf (ms₁ ++ ms₂) = ocrLenOf ms₁ + ocrLenOf ms₂ := by simp [ocrLenOf]

/-- The combined invariant of the picker loop: matches stay valid, every
character of each pool is accounted for exactly once, pool parts stay
non-empty, and with enough fuel the loop runs until a pool empties. -/
theorem mwcLoop_spec (coef : Coefficients) :
    ∀ (fuel : ℕ) (g o : List Part) (ms : List Match),
      AllNonempty g → AllNonempty o →
      (∀ m ∈ (mwcLoop coef fuel g o ms).1, m ∈ ms ∨ ValidMatch m) ∧
      sumLen (mwcLoop coef fuel g o ms).2.1 + gtLenOf (mwcLoop coef fuel g o ms).1 =
        sumLen g + gtLenOf ms ∧
      sumLen (mwcLoop coef fuel g o ms).2.2 + ocrLenOf (mwcLoop coef fuel g o ms).1 =
        sumLen o + ocrLenOf ms ∧
      AllNonempty (mwcLoop coef fuel g o ms).2.1 ∧
      AllNonempty (mwcLoop coef fuel g o ms).2.2 ∧
      (sumLen g + 1 ≤ fuel →
        (mwcLoop coef fuel g o ms).2.1 = [] ∨ (mwcLoop coef fuel g o ms).2.2 = [])
  | 0, g, o, ms => by
    intro hga hoa
    simp only [mwcLoop]
    exact ⟨fun m hm => Or.inl hm, by trivial, by trivial, hga, hoa,
      fun hf => absurd hf (by omega)⟩
  | fuel + 1, g, o, ms => by
    intro hga hoa
    by_cases hempty : (g.isEmpty || o.isEmpty) = true
    · simp only [mwcLoop, hempty, if_true]
      refine ⟨fun m hm => Or.inl hm, by trivial, by trivial, hga, hoa, fun _ => ?_⟩
      rcases Bool.or_eq_true_iff.1 hempty with he | he
      · exact Or.inl (List.isEmpty_iff.1 he)
      · exact Or.inr (List.isEmpty_iff.1 he)
    · have hloop : mwcLoop coef (fuel + 1) g o ms =
          mwcLoop coef fuel (match_longest_gt_lines g o coef).2.1
            (match_longest_gt_lines g o coef).2.2
            (ms ++ (match_longest_gt_lines g o coef).1.toList) := by
        simp only [mwcLoop, hempty]
        rfl
      rw [Bool.or_eq_true_iff, not_or] at hempty
      obtain ⟨hge, hoe⟩ := hempty
      rcases g with - | ⟨g0, gs⟩
      · simp at hge
      rcases o with - | ⟨o0, os⟩
      · simp at hoe
      obtain ⟨m, g', o', hmlg, hvm, hm1, hsg, hso, hag, hao⟩ :=
        match_longest_gt_lines_progress g0 gs o0 os coef hga hoa
      rw [hloop, hmlg]
      have ih := mwcLoop_spec coef fuel g' o' (ms ++ [m]) hag hao
      simp only [Option.toList] at ih ⊢
      refine ⟨?_, ?_, ?_, ih.2.2.2.1, ih.2.2.2.2.1, ?_⟩
      · intro m' hm'
        rcases ih.1 m' hm' with hmem | hv
        · rcases List.mem_append.1 hmem with hmem' | hmem'
          · exact Or.inl hmem'
          · simp only [List.mem_singleton] at hmem'
            subst hmem'
            exact Or.inr hvm
        · exact Or.inr hv
      · have := ih.2.1
        rw [gtLenOf_append] at this
        simp only [gtLenOf, List.map, List.sum_cons, List.sum_nil] at this
        simp only [gtLenOf] at *
        omega
      · have := ih.2.2.1
        rw [ocrLenOf_append] at this
        simp only [ocrLenOf, List.map, List.sum_cons, List.sum_nil] at this
        simp only [ocrLenOf] at *
        omega
      · intro hf
        exact ih.2.2.2.2.2 (by omega)

/-- The remaining GT pool is folded into pure deletes, the remaining OCR
pool into pure inserts; together with the loop invariant every character is
accounted for. -/
theorem match_with_coefficients_spec (gt ocr : List Char) (coef : Coefficients) :
    (∀ m ∈ match_with_coefficients gt ocr coef, ValidMatch m) ∧
      gtLenOf (match_with_coefficients gt ocr coef) = sumLen (initialize_lines gt) ∧
      ocrLenOf (match_with_coefficients gt ocr coef) = sumLen (initialize_lines ocr) := by
  have hspec := mwcLoop_spec coef (sumLen (initialize_lines gt) + 1)
    (initialize_lines gt) (initialize_lines ocr) []
    (allNonempty_initialize_lines gt) (allNonempty_initialize_lines ocr)
  unfold match_with_coefficients
  have hzero : ∀ l : List Part, (l.map (fun _ => (0 : ℕ))).sum = 0 := by
    intro l
    induction l <;> simp_all
  have hdel : ∀ l : List Part,
      gtLenOf (l.map (fun p => distance p ⟨[], p.line, p.start⟩)) = sumLen l ∧
      ocrLenOf (l.map (fun p => distance p ⟨[], p.line, p.start⟩)) = 0 := by
    intro l
    constructor
    · rw [gtLenOf, List.map_map]
      rfl
    · rw [ocrLenOf, List.map_map]
      exact hzero l
  have hins : ∀ l : List Part,
      gtLenOf (l.map (fun p => distance ⟨[], p.line, p.start⟩ p)) = 0 ∧
      ocrLenOf (l.map (fun p => distance ⟨[], p.line, p.start⟩ p)) = sumLen l := by
    intro l
    constructor
    · rw [gtLenOf, List.map_map]
      exact hzero l
    · rw [ocrLenOf, List.map_map]
      rfl
  refine ⟨?_, ?_, ?_⟩
  · intro m hm
    rcases List.mem_append.1 hm with hm' | hm'
    · rcases List.mem_append.1 hm' with hm'' | hm''
      · rcases hspec.1 m hm'' with habs | hv
        · exact absurd habs (by simp)
        · exact hv
      · obtain ⟨p, -, hp⟩ := List.mem_map.1 hm''
        rw [← hp]
        exact distance_valid _ _
    · obtain ⟨p, -, hp⟩ := List.mem_map.1 hm'
      rw [← hp]
      exact distance_valid _ _
  · rw [gtLenOf_append, gtLenOf_append, (hdel _).1, (hins _).1]
    have h1 := hspec.2.1
    simp only [gtLenOf, List.map_nil, List.sum_nil] at h1 ⊢
    omega
  · rw [ocrLenOf_append, ocrLenOf_append, (hdel _).2, (hins _).2]
    have h1 := hspec.2.2.1
    simp only [ocrLenOf, List.map_nil, List.sum_nil] at h1 ⊢
    omega

/-! ## Aggregation lemmas -/

theorem addDist_zero_left (a : Distance) : addDist ⟨0, 0, 0, 0⟩ a = a := by
  cases a; simp [addDist]

theorem addDist_zero_right (a : Distance) : addDist a ⟨0, 0, 0, 0⟩ = a := by
  cases a; simp [addDist]

theorem addDist_assoc (a b c : Distance) :
    addDist (addDist a b) c = addDist a (addDist b c) := by
  cases a; cases b; cases c; simp [addDist]; omega

theorem foldl_addDist : ∀ (ms : List Match) (a : Distance),
    ms.foldl (fun acc m => addDist acc m.dist) a = addDist a (aggDist ms)
  | [], a => by simp [aggDist, addDist_zero_right]
  | m :: ms, a => by
    simp only [List.foldl_cons, aggDist]
    rw [foldl_addDist ms (addDist a m.dist), foldl_addDist ms (addDist ⟨0, 0, 0, 0⟩ m.dist),
      addDist_zero_left, addDist_assoc]

theorem aggDist_cons (m : Match) (ms : List Match) :
    aggDist (m :: ms) = addDist m.dist (aggDist ms) := by
  simp only [aggDist, List.foldl_cons]
  rw [foldl_addDist ms (addDist ⟨0, 0, 0, 0⟩ m.dist), addDist_zero_left]
  rfl

/-- On valid matches the aggregated counters reproduce the total GT and OCR
characters of the match list. -/
theorem aggDist_valid_sums : ∀ (ms : List Match), (∀ m ∈ ms, ValidMatch m) →
    (aggDist ms).matchCount + (aggDist ms).delete + (aggDist ms).replace = gtLenOf ms ∧
    (aggDist ms).matchCount + (aggDist ms).insert + (aggDist ms).replace = ocrLenOf ms
  | [], _ => by simp [aggDist, gtLenOf, ocrLenOf]
  | m :: ms, h => by
    have hm := h m (List.mem_cons_self m ms)
    have ih := aggDist_valid_sums ms (fun m' hm' => h m' (List.mem_cons_of_mem m hm'))
    rw [aggDist_cons]
    simp only [gtLenOf, ocrLenOf, List.map_cons, List.sum_cons, addDist] at *
    obtain ⟨h1, h2⟩ := hm
    omega

/-- The pool built by `initialize_lines` carries exactly the characters of
the non-empty lines of the input. -/
theorem enumFrom_filter_len_sum : ∀ (l : List (List Char)) (n : ℕ),
    (((List.enumFrom n l).filter (fun p => decide (p.2.length ≠ 0))).map
      (fun p => p.2.length)).sum =
      ((l.filter (fun s => decide (s.length ≠ 0))).map List.length).sum
  | [], _ => rfl
  | a :: l, n => by
    simp only [List.enumFrom, List.filter_cons]
    by_cases ha : a.length = 0
    · simpa [ha] using enumFrom_filter_len_sum l (n + 1)
    · simpa [ha] using enumFrom_filter_len_sum l (n + 1)

theorem init_sumLen (t : List Char) :
    sumLen (initialize_lines t) =
      (((pySplitlines t).filter (fun s => s.length ≠ 0)).map List.length).sum := by
  unfold initialize_lines
  rw [sumLen_sortDesc]
  have hmm : sumLen ((((pySplitlines t).enum).filter
      (fun p => decide (p.2.length ≠ 0))).map (fun p => (⟨p.2, p.1, 0⟩ : Part))) =
      ((((pySplitlines t).enum).filter (fun p => decide (p.2.length ≠ 0))).map
        (fun p => p.2.length)).sum := by
    rw [sumLen, List.map_map]
    rfl
  rw [hmm]
  exact enumFrom_filter_len_sum (pySplitlines t) 0

/-- Claim C5: for every pair of inputs and every coefficient vector, the
matches of `match_with_coefficients` account for every character of the
non-empty GT lines (via `match + delete + replace`) and every character of
the non-empty OCR lines (via `match + insert + replace`) exactly once. -/
theorem match_with_coefficients_char_account (gt ocr : List Char) (coef : Coefficients) :
    (aggDist (match_with_coefficients gt ocr coef)).matchCount +
        (aggDist (match_with_coefficients gt ocr coef)).delete +
        (aggDist (match_with_coefficients gt ocr coef)).replace =
      (((pySplitlines gt).filter (fun s => s.length ≠ 0)).map List.length).sum ∧
    (aggDist (match_with_coefficients gt ocr coef)).matchCount +
        (aggDist (match_with_coefficients gt ocr coef)).insert +
        (aggDist (match_with_coefficients gt ocr coef)).replace =
      (((pySplitlines ocr).filter (fun s => s.length ≠ 0)).map List.length).sum := by
  obtain ⟨hvalid, hgt, hocr⟩ := match_with_coefficients_spec gt ocr coef
  have hsums := aggDist_valid_sums _ hvalid
  rw [← init_sumLen, ← init_sumLen]
  rw [← hgt, ← hocr]
  exact hsums

/-- Claim C6: on non-empty pools of non-empty parts the picker step always
commits a match and strictly shrinks the GT pool's character count, and the
picker loop (run with its actual fuel) always ends with an empty pool. -/
theorem picker_progress_and_termination :
    (∀ (g0 : Part) (gs : List Part) (o0 : Part) (os : List Part) (coef : Coefficients),
      AllNonempty (g0 :: gs) → AllNonempty (o0 :: os) →
      ∃ m g' o', match_longest_gt_lines (g0 :: gs) (o0 :: os) coef = (some m, g', o') ∧
        1 ≤ m.gt.length ∧ sumLen g' < sumLen (g0 :: gs)) ∧
    (∀ (gt ocr : List Char) (coef : Coefficients),
      (mwcLoop coef (sumLen (initialize_lines gt) + 1) (initialize_lines gt)
        (initialize_lines ocr) []).2.1 = [] ∨
      (mwcLoop coef (sumLen (initialize_lines gt) + 1) (initialize_lines gt)
        (initialize_lines ocr) []).2.2 = []) := by
  constructor
  · intro g0 gs o0 os coef hga hoa
    obtain ⟨m, g', o', hmlg, -, hm1, hsg, -, -, -⟩ :=
      match_longest_gt_lines_progress g0 gs o0 os coef hga hoa
    exact ⟨m, g', o', hmlg, hm1, by omega⟩
  · intro gt ocr coef
    have hspec := mwcLoop_spec coef (sumLen (initialize_lines gt) + 1)
      (initialize_lines gt) (initialize_lines ocr) []
      (allNonempty_initialize_lines gt) (allNonempty_initialize_lines ocr)
    exact hspec.2.2.2.2.2 (le_refl _)

instance allNonemptyDecidable (l : List Part) : Decidable (AllNonempty l) :=
  List.decidableBAll _ l

/-- Witness for `picker_progress_and_termination` at a concrete pool. -/
theorem picker_progress_witness :
    (AllNonempty [(⟨['a'], 0, 0⟩ : Part)] ∧ AllNonempty [(⟨['b'], 0, 0⟩ : Part)]) ∧
      (∃ m g' o', match_longest_gt_lines [(⟨['a'], 0, 0⟩ : Part)]
          [(⟨['b'], 0, 0⟩ : Part)] ⟨15, 0, 0, 0⟩ = (some m, g', o') ∧
        1 ≤ m.gt.length ∧ sumLen g' < sumLen [(⟨['a'], 0, 0⟩ : Part)]) :=
  ⟨⟨by decide, by decide⟩,
    picker_progress_and_termination.1 ⟨['a'], 0, 0⟩ [] ⟨['b'], 0, 0⟩ []
      ⟨15, 0, 0, 0⟩ (by decide) (by decide)⟩

/-! ## The coefficient sweep -/

/-- Invariant of the sweep state: a recorded score is the accuracy of the
recorded matches, and the recorded matches are valid. -/
def SweepInv (st : Option ℚ × List Match) : Prop :=
  (∀ s, st.1 = some s → s = character_accuracy_for_matches st.2) ∧
    (∀ m ∈ st.2, ValidMatch m)

theorem sweepGo_inv (gt ocr : List Char) :
    ∀ (cs : List Coefficients) (st : Option ℚ × List Match), SweepInv st →
      SweepInv (sweepGo gt ocr cs st) ∧
        ((st.1.isSome ∨ cs ≠ []) → (sweepGo gt ocr cs st).1.isSome)
  | [], st, h => ⟨h, fun hor => by
      rcases hor with hs | hne
      · exact hs
      · exact absurd rfl hne⟩
  | c :: cs, st, h => by
    simp only [sweepGo]
    set sc := character_accuracy_for_matches (match_with_coefficients gt ocr c) with hsc
    set st' := if gtOptBot sc st.1 then (some sc, match_with_coefficients gt ocr c) else st
      with hst'
    have hstep : SweepInv st' ∧ st'.1.isSome := by
      rw [hst']
      split
      · refine ⟨⟨?_, fun m hm => (match_with_coefficients_spec gt ocr c).1 m hm⟩, by simp⟩
        intro s hs
        injection hs with hs
        rw [← hs]
      · next hnot =>
        refine ⟨h, ?_⟩
        cases hst : st.1 with
        | none => rw [hst] at hnot; simp [gtOptBot] at hnot
        | some s => simp
    by_cases hge : geOneBot st'.1 = true
    · rw [if_pos hge]
      exact ⟨hstep.1, fun _ => hstep.2⟩
    · rw [Bool.not_eq_true] at hge
      rw [hge]
      simp only [Bool.false_eq_true, if_false]
      have ih := sweepGo_inv gt ocr cs st' hstep.1
      exact ⟨ih.1, fun _ => ih.2 (Or.inl hstep.2)⟩

/-- Claim C1: the score returned by `flexible_character_accuracy` is at most
`1`, and equals `1` exactly when the aggregated
`insert + delete + replace` over the returned matches is zero. -/
theorem flexible_character_accuracy_score_bound (gt ocr : List Char) :
    ∃ s : ℚ, (flexible_character_accuracy gt ocr).1 = some s ∧ s ≤ 1 ∧
      (s = 1 ↔ (aggDist (flexible_character_accuracy gt ocr).2).insert +
        (aggDist (flexible_character_accuracy gt ocr).2).delete +
        (aggDist (flexible_character_accuracy gt ocr).2).replace = 0) := by
  unfold flexible_character_accuracy
  have hinv := sweepGo_inv gt ocr coefGrid (none, [])
    ⟨fun s hs => absurd hs (by simp), fun m hm => absurd hm (by simp)⟩
  have hsome := hinv.2 (Or.inr (by decide))
  obtain ⟨s, hs⟩ := Option.isSome_iff_exists.1 hsome
  have hscore := hinv.1.1 s hs
  refine ⟨s, hs, ?_, ?_⟩
  · rw [hscore]
    exact character_accuracy_le_one _
  · rw [hscore]
    unfold character_accuracy_for_matches
    rw [character_accuracy_eq_one_iff]
    constructor <;> (intro hh; omega)

/-- Claim C4: every match returned by `flexible_character_accuracy` accounts
for its GT fragment via `match + delete + replace` and its OCR fragment via
`match + insert + replace`. -/
theorem flexible_character_accuracy_matches_valid (gt ocr : List Char) (m : Match)
    (hm : m ∈ (flexible_character_accuracy gt ocr).2) :
    m.dist.matchCount + m.dist.delete + m.dist.replace = m.gt.text.length ∧
      m.dist.matchCount + m.dist.insert + m.dist.replace = m.ocr.text.length := by
  have hinv := sweepGo_inv gt ocr coefGrid (none, [])
    ⟨fun s hs => absurd hs (by simp), fun m hm => absurd hm (by simp)⟩
  exact (hinv.1.2 m hm : ValidMatch m)

/-- Witness for `flexible_character_accuracy_matches_valid` at a concrete
input. -/
theorem flexible_character_accuracy_matches_valid_witness :
    (⟨⟨['a'], 0, 0⟩, ⟨['a'], 0, 0⟩, ⟨0, 0, 0, 1⟩⟩ : Match) ∈
        (flexible_character_accuracy ['a'] ['a']).2 ∧
      ((⟨⟨['a'], 0, 0⟩, ⟨['a'], 0, 0⟩, ⟨0, 0, 0, 1⟩⟩ : Match).dist.matchCount +
          (⟨⟨['a'], 0, 0⟩, ⟨['a'], 0, 0⟩, ⟨0, 0, 0, 1⟩⟩ : Match).dist.delete +
          (⟨⟨['a'], 0, 0⟩, ⟨['a'], 0, 0⟩, ⟨0, 0, 0, 1⟩⟩ : Match).dist.replace =
        (⟨⟨['a'], 0, 0⟩, ⟨['a'], 0, 0⟩, ⟨0, 0, 0, 1⟩⟩ : Match).gt.text.length ∧
        (⟨⟨['a'], 0, 0⟩, ⟨['a'], 0, 0⟩, ⟨0, 0, 0, 1⟩⟩ : Match).dist.matchCount +
          (⟨⟨['a'], 0, 0⟩, ⟨['a'], 0, 0⟩, ⟨0, 0, 0, 1⟩⟩ : Match).dist.insert +
          (⟨⟨['a'], 0, 0⟩, ⟨['a'], 0, 0⟩, ⟨0, 0, 0, 1⟩⟩ : Match).dist.replace =
        (⟨⟨['a'], 0, 0⟩, ⟨['a'], 0, 0⟩, ⟨0, 0, 0, 1⟩⟩ : Match).ocr.text.length) :=
  ⟨by decide!, flexible_character_accuracy_matches_valid ['a'] ['a'] _ (by decide!)⟩

/-! ## Claim C8: empty GT against non-empty OCR -/

/-- A constant-score sweep keeps its recorded state. -/
theorem sweepGo_const_keep (gt ocr : List Char) (s : ℚ) (hs : ¬(1 ≤ s))
    (hconst : ∀ c, character_accuracy_for_matches (match_with_coefficients gt ocr c) = s) :
    ∀ (cs : List Coefficients) (ms₀ : List Match),
      sweepGo gt ocr cs (some s, ms₀) = (some s, ms₀)
  | [], _ => rfl
  | c :: cs, ms₀ => by
    simp only [sweepGo]
    rw [hconst c]
    have h1 : gtOptBot s (some s) = false := by simp [gtOptBot]
    rw [h1]
    simp only [Bool.false_eq_true, if_false]
    have h2 : geOneBot (some s) = false := by simp [geOneBot, hs]
    rw [h2]
    simp only [Bool.false_eq_true, if_false]
    exact sweepGo_const_keep gt ocr s hs hconst cs ms₀

/-- A constant-score sweep returns the constant and the first run's matches. -/
theorem sweepGo_const (gt ocr : List Char) (s : ℚ) (hs : ¬(1 ≤ s))
    (hconst : ∀ c, character_accuracy_for_matches (match_with_coefficients gt ocr c) = s)
    (c : Coefficients) (cs : List Coefficients) :
    sweepGo gt ocr (c :: cs) (none, []) = (some s, match_with_coefficients gt ocr c) := by
  simp only [sweepGo]
  rw [hconst c]
  have h1 : gtOptBot s none = true := rfl
  rw [h1]
  simp only [if_true]
  have h2 : geOneBot (some s) = false := by simp [geOneBot, hs]
  rw [h2]
  simp only [Bool.false_eq_true, if_false]
  exact sweepGo_const_keep gt ocr s hs hconst cs _

/-- With an empty GT pool the picker never runs: every coefficient run
returns the pure-insert matches of the OCR pool. -/
theorem match_with_coefficients_empty_gt (gt ocr : List Char)
    (hgt : initialize_lines gt = []) (c : Coefficients) :
    match_with_coefficients gt ocr c =
      (initialize_lines ocr).map (fun l => distance ⟨[], l.line, l.start⟩ l) := by
  unfold match_with_coefficients
  rw [hgt]
  simp [mwcLoop, sumLen]

/-- The aggregated counters of pure-insert matches. -/
theorem aggDist_inserts : ∀ l : List Part,
    aggDist (l.map (fun p => distance ⟨[], p.line, p.start⟩ p)) = ⟨sumLen l, 0, 0, 0⟩
  | [] => rfl
  | p :: l => by
    rw [List.map_cons, aggDist_cons, aggDist_inserts l, distance_from_empty]
    simp [addDist, sumLen_cons]

theorem sumLen_pos {l : List Part} (hall : AllNonempty l) (hne : l ≠ []) :
    sumLen l ≠ 0 := by
  cases l with
  | nil => exact absurd rfl hne
  | cons p ps =>
    have := hall p (List.mem_cons_self p ps)
    rw [sumLen_cons]
    omega

/-- Claim C8: when GT has no characters (empty string or only empty lines)
and OCR has at least one character, the returned score is the negated
insertion count `-N`, `N` the total characters of the non-empty OCR lines. -/
theorem flexible_character_accuracy_empty_gt (gt ocr : List Char)
    (hgt : initialize_lines gt = []) (hocr : initialize_lines ocr ≠ []) :
    (flexible_character_accuracy gt ocr).1 =
      some (-(((((pySplitlines ocr).filter (fun s => s.length ≠ 0)).map
        List.length).sum : ℕ) : ℚ)) := by
  have hN : sumLen (initialize_lines ocr) ≠ 0 :=
    sumLen_pos (allNonempty_initialize_lines ocr) hocr
  have hcafm : ∀ c, character_accuracy_for_matches (match_with_coefficients gt ocr c) =
      -((sumLen (initialize_lines ocr) : ℕ) : ℚ) := by
    intro c
    rw [match_with_coefficients_empty_gt gt ocr hgt c]
    unfold character_accuracy_for_matches
    rw [aggDist_inserts]
    rw [character_accuracy_eq]
    simp [hN]
  have hlt : ¬(1 ≤ -((sumLen (initialize_lines ocr) : ℕ) : ℚ)) := by
    have h1 : (0 : ℚ) ≤ ((sumLen (initialize_lines ocr) : ℕ) : ℚ) := by positivity
    intro hcon
    linarith
  obtain ⟨c, cs, hcs⟩ : ∃ c cs, coefGrid = c :: cs := ⟨_, _, rfl⟩
  unfold flexible_character_accuracy
  rw [hcs, sweepGo_const gt ocr _ hlt hcafm c cs]
  rw [← init_sumLen]

/-- Witness for `flexible_character_accuracy_empty_gt`: `""` vs `"abc"`
scores `-3`. -/
theorem flexible_character_accuracy_empty_gt_witness :
    (initialize_lines [] = [] ∧ initialize_lines ['a', 'b', 'c'] ≠ []) ∧
      (flexible_character_accuracy [] ['a', 'b', 'c']).1 =
        some (-(((((pySplitlines ['a', 'b', 'c']).filter (fun s => s.length ≠ 0)).map
          List.length).sum : ℕ) : ℚ)) :=
  ⟨⟨by decide, by decide⟩,
    flexible_character_accuracy_empty_gt [] ['a', 'b', 'c'] (by decide) (by decide)⟩

/-! ## Claim C3: identity inputs -/

theorem gtSlideParts_self (p : Part) : gtSlideParts p p.length 0 = [(0, p), (0, p)] := by
  unfold gtSlideParts
  rw [show ((max 1 ((0 : ℤ) + 1)).toNat = 1) from rfl,
    show List.range 1 = [0] from rfl]
  simp [substring_full]

theorem ocrSlideParts_self (p : Part) : ocrSlideParts p p.length 0 = [(0, p), (0, p)] := by
  unfold ocrSlideParts
  rw [show ((max 1 (-(0 : ℤ) + 1)).toNat = 1) from rfl,
    show List.range 1 = [0] from rfl]
  simp [substring_full]

theorem mlStep_self_first (p : Part) (hp : p.length ≠ 0) :
    mlStep p.length none ((0, p), (0, p)) = some (0, distance p p, 0, 0) := by
  unfold mlStep
  simp [distance_self, score_edit_distance, ltEditOpt, Nat.pos_of_ne_zero hp]

theorem mlStep_self_keep (p : Part) :
    mlStep p.length (some (0, distance p p, 0, 0)) ((0, p), (0, p)) =
      some (0, distance p p, 0, 0) := by
  unfold mlStep
  simp [distance_self, score_edit_distance, ltEditOpt]

/-- On identical non-empty parts `match_lines` returns the perfect match. -/
theorem match_lines_self (p : Part) (hp : p.length ≠ 0) :
    match_lines p p = some (distance p p) := by
  simp only [match_lines, min_self, sub_self]
  rw [if_neg hp, gtSlideParts_self, ocrSlideParts_self]
  rw [show (([(0, p), (0, p)] : List (ℕ × Part)).flatMap
      (fun g => ([(0, p), (0, p)] : List (ℕ × Part)).map (fun o => (g, o)))) =
    [((0, p), (0, p)), ((0, p), (0, p)), ((0, p), (0, p)), ((0, p), (0, p))] from rfl]
  simp only [List.foldl_cons, List.foldl_nil]
  rw [mlStep_self_first p hp, mlStep_self_keep, mlStep_self_keep, mlStep_self_keep]
  have helong : mlElongate p p p.length (some (0, distance p p, 0, 0)) =
      some (0, distance p p, 0, 0) := by
    simp only [mlElongate, distance_self]
    simp
  rw [helong]
  have hfb : ltEditOpt (score_edit_distance (distance p ⟨[], p.line, p.start⟩).dist)
      (some (0, distance p p, 0, 0)) = false := by
    rw [distance_to_empty]
    simp [score_edit_distance, ltEditOpt]
  rw [hfb]
  simp

/-- With the all-zero secondary coefficients every penalty is a nonnegative
multiple of the edit score. -/
theorem calculate_penalty_c15 (gl ol gs os gms oms : ℕ) (d : Distance) :
    calculate_penalty gl ol gs os gms oms d ⟨15, 0, 0, 0⟩ =
      ((score_edit_distance d : ℕ) : ℚ) * 15 := by
  unfold calculate_penalty
  simp

theorem mglStep_self_first (p : Part) (hp : p.length ≠ 0) :
    mglStep p ⟨15, 0, 0, 0⟩ none p = some (0, distance p p, p) := by
  unfold mglStep
  rw [match_lines_self p hp]
  dsimp only
  have hpen : calculate_penalty p.length p.length p.start p.start
      (distance p p).gt.start (distance p p).ocr.start (distance p p).dist
      ⟨15, 0, 0, 0⟩ = 0 := by
    rw [calculate_penalty_c15, distance_self]
    simp [score_edit_distance]
  rw [hpen]
  rw [if_pos (show ltPenOpt 0 none = true from rfl)]

theorem mglStep_self_keep (p o : Part) :
    mglStep p ⟨15, 0, 0, 0⟩ (some (0, distance p p, p)) o =
      some (0, distance p p, p) := by
  unfold mglStep
  cases hml : match_lines p o with
  | none => rfl
  | some m =>
    dsimp only
    rw [calculate_penalty_c15]
    have : ltPenOpt (((score_edit_distance m.dist : ℕ) : ℚ) * 15)
        (some (0, distance p p, p)) = false := by
      simp only [ltPenOpt, decide_eq_false_iff_not, not_lt]
      positivity
    rw [this]
    simp

/-- On an identical pool the first OCR partner of the head is itself, with a
perfect alignment. -/
theorem match_gt_line_self (p : Part) (rest : List Part) (hp : p.length ≠ 0) :
    match_gt_line p (p :: rest) ⟨15, 0, 0, 0⟩ = (some (distance p p), some p) := by
  unfold match_gt_line
  have hfold : (p :: rest).foldl (mglStep p ⟨15, 0, 0, 0⟩) none =
      some (0, distance p p, p) := by
    rw [List.foldl_cons, mglStep_self_first p hp]
    exact foldl_inv (fun st => st = some (0, distance p p, p))
      (mglStep p ⟨15, 0, 0, 0⟩) rest _ rfl
      (fun st o _ hst => by rw [hst]; exact mglStep_self_keep p o)
  rw [hfold]

theorem character_accuracy_perfect (n : ℕ) :
    character_accuracy ⟨0, 0, 0, n⟩ = 1 :=
  character_accuracy_of_no_errors _ (by simp)

theorem remove_or_split_exact (q : Part) (l : List Part) :
    remove_or_split q q l = (l.erase q, false) := by
  unfold remove_or_split
  rw [if_neg (by omega)]

/-- On two identical non-empty pools `match_longest_gt_lines` commits the
perfect self-match of the head and pops it from both pools. -/
theorem match_longest_gt_lines_self (p : Part) (rest : List Part)
    (hall : AllNonempty (p :: rest)) :
    match_longest_gt_lines (p :: rest) (p :: rest) ⟨15, 0, 0, 0⟩ =
      (some (distance p p), rest, rest) := by
  have hp : p.length ≠ 0 := hall p (List.mem_cons_self p rest)
  rw [match_longest_gt_lines_cons]
  have hpred : decide (((min p.length p.length : ℕ) : ℤ) - 1 < (p.length : ℤ)) = true := by
    simp only [decide_eq_true_eq]
    omega
  have hcand : (p :: rest).takeWhile (fun l : Part =>
        decide (((min p.length p.length : ℕ) : ℤ) - 1 < (l.length : ℤ))) =
      p :: rest.takeWhile (fun l : Part =>
        decide (((min p.length p.length : ℕ) : ℤ) - 1 < (l.length : ℤ))) := by
    rw [List.takeWhile_cons, hpred]
    rfl
  rw [hcand]
  have hstep : mlglStep (p :: rest) ⟨15, 0, 0, 0⟩ none p =
      some (1, distance p p, p, p) := by
    unfold mlglStep
    rw [match_gt_line_self p rest hp]
    dsimp only
    rw [show (distance p p).dist = ⟨0, 0, 0, p.length⟩ by rw [distance_self]]
    rw [character_accuracy_perfect]
    rw [if_pos (show gtScoreOpt 1 none = true from rfl)]
  have hgo : mlglGo (p :: rest) ⟨15, 0, 0, 0⟩ (p :: rest.takeWhile (fun l : Part =>
      decide (((min p.length p.length : ℕ) : ℤ) - 1 < (l.length : ℤ)))) none =
      some (1, distance p p, p, p) := by
    simp only [mlglGo]
    rw [hstep]
    rw [if_pos (show geOneOpt (some (1, distance p p, p, p)) = true by
      simp [geOneOpt])]
  rw [hgo]
  dsimp only
  simp [show (distance p p).gt = p from rfl, show (distance p p).ocr = p from rfl,
    remove_or_split_exact, List.erase_cons_head]

theorem length_le_sumLen : ∀ {l : List Part}, AllNonempty l → l.length ≤ sumLen l
  | [], _ => le_refl _
  | p :: l, hall => by
    have hp := hall p (List.mem_cons_self p l)
    have ih := length_le_sumLen (fun q hq => hall q (List.mem_cons_of_mem p hq))
    rw [List.length_cons, sumLen_cons]
    omega

/-- On two identical pools the picker loop pops one perfect self-match per
iteration until both pools are empty simultaneously. -/
theorem mwcLoop_self : ∀ (l : List Part) (fuel : ℕ) (ms : List Match),
    AllNonempty l → l.length + 1 ≤ fuel →
    mwcLoop ⟨15, 0, 0, 0⟩ fuel l l ms = (ms ++ l.map (fun p => distance p p), [], [])
  | [], fuel, ms, _, hf => by
    cases fuel with
    | zero => omega
    | succ f => simp [mwcLoop]
  | p :: rest, fuel, ms, hall, hf => by
    cases fuel with
    | zero => simp at hf
    | succ f =>
      have hne : ((p :: rest).isEmpty || (p :: rest).isEmpty) = false := by simp
      simp only [mwcLoop, hne, Bool.false_eq_true, if_false]
      rw [match_longest_gt_lines_self p rest hall]
      have ih := mwcLoop_self rest f (ms ++ [distance p p])
        (fun q hq => hall q (List.mem_cons_of_mem p hq)) (by
          rw [List.length_cons] at hf
          omega)
      simp only [Option.toList] at ih ⊢
      rw [ih]
      simp

/-- On identical inputs the first coefficient run matches every line
perfectly. -/
theorem match_with_coefficients_self (x : List Char) :
    match_with_coefficients x x ⟨15, 0, 0, 0⟩ =
      (initialize_lines x).map (fun p => distance p p) := by
  simp only [match_with_coefficients]
  rw [mwcLoop_self (initialize_lines x) (sumLen (initialize_lines x) + 1) []
    (allNonempty_initialize_lines x) (by
      have := length_le_sumLen (allNonempty_initialize_lines x)
      omega)]
  simp

theorem aggDist_self_perfect : ∀ l : List Part,
    aggDist (l.map (fun p => distance p p)) = ⟨0, 0, 0, sumLen l⟩
  | [] => rfl
  | p :: l => by
    rw [List.map_cons, aggDist_cons, aggDist_self_perfect l, distance_self]
    simp [addDist, sumLen_cons]

/-- The sweep stops at the very first coefficient vector when it already
gives a perfect score. -/
theorem sweepGo_first_perfect (gt ocr : List Char) (c : Coefficients)
    (cs : List Coefficients)
    (h1 : character_accuracy_for_matches (match_with_coefficients gt ocr c) = 1) :
    sweepGo gt ocr (c :: cs) (none, []) = (some 1, match_with_coefficients gt ocr c) := by
  simp only [sweepGo]
  rw [h1]
  rw [show gtOptBot 1 none = true from rfl]
  simp only [if_true]
  rw [show geOneBot (some 1) = true by simp [geOneBot]]
  simp

/-- Claim C3: `flexible_character_accuracy(x, x)` scores `1` for every `x`,
and on two empty inputs returns exactly `(1, [])`. -/
theorem flexible_character_accuracy_identity :
    (∀ x : List Char, (flexible_character_accuracy x x).1 = some 1) ∧
      flexible_character_accuracy [] [] = (some 1, []) := by
  obtain ⟨cs, hcs⟩ : ∃ cs, coefGrid = ⟨15, 0, 0, 0⟩ :: cs := ⟨_, rfl⟩
  have hx : ∀ x : List Char,
      flexible_character_accuracy x x = (some 1, match_with_coefficients x x ⟨15, 0, 0, 0⟩) := by
    intro x
    unfold flexible_character_accuracy
    rw [hcs]
    apply sweepGo_first_perfect
    rw [match_with_coefficients_self]
    unfold character_accuracy_for_matches
    rw [aggDist_self_perfect]
    exact character_accuracy_perfect _
  constructor
  · intro x
    rw [hx x]
  · rw [hx []]
    rfl

/-! ## Claim C7: the selection rule of the longest-GT matcher -/

/-- Claim C7, counterexample: with GT `"a\naa"` (pool `["aa", "a"]`) and OCR
`"b"` and coefficients `(15, 3, 1, 1)`, both GT parts are candidates and
every alignment among the scanned pairs is a pure deletion with character
accuracy `0`, so the early-break clause never fires under any reading; yet
the matcher commits the pair `("aa", "")` with penalty `32` — the second
candidate's equal accuracy is not a strict improvement — although the
candidate pair `("a", "")` aligns with the strictly lower penalty `14`.
The committed triple is therefore not the one with the lowest penalty over
all (GT candidate, OCR part) pairs whose alignment exists. -/
theorem mlgl_penalty_counterexample :
    initialize_lines ("a\naa".toList) =
      [⟨['a', 'a'], 1, 0⟩, ⟨['a'], 0, 0⟩] ∧
    initialize_lines ("b".toList) = [⟨['b'], 0, 0⟩] ∧
    (match_longest_gt_lines [⟨['a', 'a'], 1, 0⟩, ⟨['a'], 0, 0⟩]
        [⟨['b'], 0, 0⟩] ⟨15, 3, 1, 1⟩).1 =
      some ⟨⟨['a', 'a'], 1, 0⟩, ⟨[], 0, 0⟩, ⟨0, 2, 0, 0⟩⟩ ∧
    match_gt_line ⟨['a', 'a'], 1, 0⟩ [⟨['b'], 0, 0⟩] ⟨15, 3, 1, 1⟩ =
      (some ⟨⟨['a', 'a'], 1, 0⟩, ⟨[], 0, 0⟩, ⟨0, 2, 0, 0⟩⟩,
        some ⟨['b'], 0, 0⟩) ∧
    (∀ g ∈ ([⟨['a', 'a'], 1, 0⟩, ⟨['a'], 0, 0⟩] : List Part).takeWhile
        (fun l : Part => decide (((min (⟨['a', 'a'], 1, 0⟩ : Part).length
          (⟨['b'], 0, 0⟩ : Part).length : ℕ) : ℤ) - 1 < (l.length : ℤ))),
      ∀ o ∈ ([⟨['b'], 0, 0⟩] : List Part), ∀ m ∈ (match_lines g o).toList,
        character_accuracy m.dist < 1) ∧
    (⟨['a'], 0, 0⟩ : Part) ∈ ([⟨['a', 'a'], 1, 0⟩, ⟨['a'], 0, 0⟩] :
        List Part).takeWhile (fun l : Part =>
      decide (((min (⟨['a', 'a'], 1, 0⟩ : Part).length
        (⟨['b'], 0, 0⟩ : Part).length : ℕ) : ℤ) - 1 < (l.length : ℤ))) ∧
    match_lines ⟨['a'], 0, 0⟩ ⟨['b'], 0, 0⟩ =
      some ⟨⟨['a'], 0, 0⟩, ⟨[], 0, 0⟩, ⟨0, 1, 0, 0⟩⟩ ∧
    penaltyOf ⟨['a'], 0, 0⟩ ⟨['b'], 0, 0⟩
        ⟨⟨['a'], 0, 0⟩, ⟨[], 0, 0⟩, ⟨0, 1, 0, 0⟩⟩ ⟨15, 3, 1, 1⟩ <
      penaltyOf ⟨['a', 'a'], 1, 0⟩ ⟨['b'], 0, 0⟩
        ⟨⟨['a', 'a'], 1, 0⟩, ⟨[], 0, 0⟩, ⟨0, 2, 0, 0⟩⟩ ⟨15, 3, 1, 1⟩ := by
  refine ⟨?_, ?_, ?_, ?_, ?_, ?_, ?_, ?_⟩ <;> decide!

/-- `takeWhile` on a descending pool keeps exactly the parts above the
threshold. -/
theorem takeWhile_eq_filter_of_sorted (t : ℤ) :
    ∀ (l : List Part), List.Pairwise (fun a b : Part => b.length ≤ a.length) l →
      l.takeWhile (fun p : Part => decide (t < (p.length : ℤ))) =
        l.filter (fun p : Part => decide (t < (p.length : ℤ)))
  | [], _ => rfl
  | a :: l, hsort => by
    rw [List.takeWhile_cons, List.filter_cons]
    by_cases ha : t < (a.length : ℤ)
    · have htrue : decide (t < (a.length : ℤ)) = true := by simp [ha]
      rw [htrue]
      simp only [if_true]
      rw [takeWhile_eq_filter_of_sorted t l (List.Pairwise.of_cons hsort)]
    · have hfalse : decide (t < (a.length : ℤ)) = false := by
        simp [ha]
      rw [hfalse]
      simp only [Bool.false_eq_true, if_false]
      have hnil : l.filter (fun p : Part => decide (t < (p.length : ℤ))) = [] := by
        rw [List.filter_eq_nil_iff]
        intro b hb
        have hle := (List.pairwise_cons.1 hsort).1 b hb
        simp only [decide_eq_true_eq]
        omega
      rw [hnil]

/-- Claim C7, amended: with the pools sorted by length descending, the
scanned candidates are exactly the GT parts longer than the threshold, in
pool order.  A committed match is produced by `match_gt_line` for one of
these candidates, with the minimal penalty over every alignable OCR-pool
partner of that candidate; across candidates the code selects by character
accuracy, not by penalty: the committed match either fired the early break
at accuracy `1` or maximizes the character accuracy over all candidates'
best-by-penalty matches. -/
theorem match_longest_gt_lines_selection (g0 : Part) (gs : List Part) (o0 : Part)
    (os : List Part) (coef : Coefficients)
    (hsort : List.Pairwise (fun a b : Part => b.length ≤ a.length) (g0 :: gs)) :
    ((g0 :: gs).takeWhile (fun l : Part =>
        decide (((min g0.length o0.length : ℕ) : ℤ) - 1 < (l.length : ℤ))) =
      (g0 :: gs).filter (fun l : Part =>
        decide (((min g0.length o0.length : ℕ) : ℤ) - 1 < (l.length : ℤ)))) ∧
    (∀ m g' o', match_longest_gt_lines (g0 :: gs) (o0 :: os) coef = (some m, g', o') →
      (∃ g ∈ (g0 :: gs).takeWhile (fun l : Part =>
          decide (((min g0.length o0.length : ℕ) : ℤ) - 1 < (l.length : ℤ))),
        ∃ o ∈ o0 :: os, match_gt_line g (o0 :: os) coef = (some m, some o) ∧
          match_lines g o = some m ∧
          ∀ o' ∈ o0 :: os, ∀ m', match_lines g o' = some m' →
            penaltyOf g o m coef ≤ penaltyOf g o' m' coef) ∧
      ((1 : ℚ) ≤ character_accuracy m.dist ∨
        ∀ g ∈ (g0 :: gs).takeWhile (fun l : Part =>
            decide (((min g0.length o0.length : ℕ) : ℤ) - 1 < (l.length : ℤ))),
          ∀ m' o', match_gt_line g (o0 :: os) coef = (some m', some o') →
            character_accuracy m'.dist ≤ character_accuracy m.dist)) := by
  refine ⟨takeWhile_eq_filter_of_sorted _ _ hsort, ?_⟩
  intro m g' o' h
  rw [match_longest_gt_lines_cons] at h
  cases hgo : mlglGo (o0 :: os) coef ((g0 :: gs).takeWhile (fun l : Part =>
      decide (((min g0.length o0.length : ℕ) : ℤ) - 1 < (l.length : ℤ)))) none with
  | none =>
    rw [hgo] at h
    exact absurd (congrArg Prod.fst h) (by simp)
  | some r =>
    obtain ⟨s, m₂, bg, bo⟩ := r
    rw [hgo] at h
    have hm : m₂ = m := by
      have := congrArg Prod.fst h
      simpa using this
    subst hm
    have hspec := mlglGo_spec (o0 :: os) coef _ none (s, m₂, bg, bo) hgo
    rcases hspec.1 with habs | ⟨hbgmem, hmg, hacc⟩
    · exact absurd habs (by simp)
    · have hmgspec := match_gt_line_spec bg (o0 :: os) coef m₂ bo hmg
      refine ⟨⟨bg, hbgmem, bo, hmgspec.1, hmg, hmgspec.2.1, hmgspec.2.2⟩, ?_⟩
      rcases hspec.2 with h1 | ⟨hall, -⟩
      · rw [hacc] at h1
        exact Or.inl h1
      · refine Or.inr ?_
        intro g hg m' o' hmg'
        have hle := hall g hg m' o' hmg'
        rw [hacc] at hle
        exact hle

/-- Witness for `match_longest_gt_lines_selection` at a concrete pool. -/
theorem match_longest_gt_lines_selection_witness :
    List.Pairwise (fun a b : Part => b.length ≤ a.length) [(⟨['a'], 0, 0⟩ : Part)] ∧
      (([(⟨['a'], 0, 0⟩ : Part)].takeWhile (fun l : Part =>
          decide (((min (⟨['a'], 0, 0⟩ : Part).length
            (⟨['a'], 0, 0⟩ : Part).length : ℕ) : ℤ) - 1 < (l.length : ℤ))) =
        [(⟨['a'], 0, 0⟩ : Part)].filter (fun l : Part =>
          decide (((min (⟨['a'], 0, 0⟩ : Part).length
            (⟨['a'], 0, 0⟩ : Part).length : ℕ) : ℤ) - 1 < (l.length : ℤ)))) ∧
        (∀ m g' o', match_longest_gt_lines [(⟨['a'], 0, 0⟩ : Part)]
            [(⟨['a'], 0, 0⟩ : Part)] ⟨15, 0, 0, 0⟩ = (some m, g', o') →
          (∃ g ∈ [(⟨['a'], 0, 0⟩ : Part)].takeWhile (fun l : Part =>
              decide (((min (⟨['a'], 0, 0⟩ : Part).length
                (⟨['a'], 0, 0⟩ : Part).length : ℕ) : ℤ) - 1 < (l.length : ℤ))),
            ∃ o ∈ [(⟨['a'], 0, 0⟩ : Part)],
              match_gt_line g [(⟨['a'], 0, 0⟩ : Part)] ⟨15, 0, 0, 0⟩ =
                (some m, some o) ∧
              match_lines g o = some m ∧
              ∀ o' ∈ [(⟨['a'], 0, 0⟩ : Part)], ∀ m', match_lines g o' = some m' →
                penaltyOf g o m ⟨15, 0, 0, 0⟩ ≤ penaltyOf g o' m' ⟨15, 0, 0, 0⟩) ∧
          ((1 : ℚ) ≤ character_accuracy m.dist ∨
            ∀ g ∈ [(⟨['a'], 0, 0⟩ : Part)].takeWhile (fun l : Part =>
                decide (((min (⟨['a'], 0, 0⟩ : Part).length
                  (⟨['a'], 0, 0⟩ : Part).length : ℕ) : ℤ) - 1 < (l.length : ℤ))),
              ∀ m' o', match_gt_line g [(⟨['a'], 0, 0⟩ : Part)] ⟨15, 0, 0, 0⟩ =
                (some m', some o') →
                character_accuracy m'.dist ≤ character_accuracy m.dist))) :=
  ⟨by decide, match_longest_gt_lines_selection ⟨['a'], 0, 0⟩ [] ⟨['a'], 0, 0⟩ []
    ⟨15, 0, 0, 0⟩ (by decide)⟩

/-! ## Line-index relabelling (claim C2) -/

/-- Relabel a part's source-line index. -/
def relabel (f : ℕ → ℕ) (p : Part) : Part := ⟨p.text, f p.line, p.start⟩

/-- Relabel a match's GT part with `f` and its OCR part with `h`. -/
def relabelMatch (f h : ℕ → ℕ) (m : Match) : Match :=
  ⟨relabel f m.gt, relabel h m.ocr, m.dist⟩

theorem relabel_length (f : ℕ → ℕ) (p : Part) : (relabel f p).length = p.length := rfl

theorem relabel_start (f : ℕ → ℕ) (p : Part) : (relabel f p).start = p.start := rfl

theorem relabel_endPos (f : ℕ → ℕ) (p : Part) : (relabel f p).endPos = p.endPos := rfl

theorem relabelMatch_dist (f h : ℕ → ℕ) (m : Match) :
    (relabelMatch f h m).dist = m.dist := rfl

theorem relabelMatch_gt (f h : ℕ → ℕ) (m : Match) :
    (relabelMatch f h m).gt = relabel f m.gt := rfl

theorem relabelMatch_ocr (f h : ℕ → ℕ) (m : Match) :
    (relabelMatch f h m).ocr = relabel h m.ocr := rfl

theorem relabel_injective {f : ℕ → ℕ} (hf : Function.Injective f) :
    Function.Injective (relabel f) := by
  intro p q hpq
  cases p with
  | mk t l s =>
    cases q with
    | mk t' l' s' =>
      simp only [relabel, Part.mk.injEq] at hpq ⊢
      exact ⟨hpq.1, hf hpq.2.1, hpq.2.2⟩

theorem relabel_substring (f : ℕ → ℕ) (p : Part) (a : ℕ) (b : Option ℕ) :
    (relabel f p).substring a b = relabel f (p.substring a b) := rfl

theorem relabel_split (f : ℕ → ℕ) (p q : Part) :
    (relabel f p).split (relabel f q) = (p.split q).map (relabel f) := by
  simp only [Part.split, relabel_start, relabel_endPos, relabel_substring]
  split_ifs <;> simp

theorem relabel_distance (f h : ℕ → ℕ) (g o : Part) :
    distance (relabel f g) (relabel h o) = relabelMatch f h (distance g o) := rfl

/-- Relabel the running state of the candidate-pair loop of `match_lines`. -/
def relabelSt2 (f h : ℕ → ℕ) : ℕ × Match × ℕ × ℕ → ℕ × Match × ℕ × ℕ
  | (e, m, i, j) => (e, relabelMatch f h m, i, j)

theorem ltEditOpt_relabel (f h : ℕ → ℕ) (ed : ℕ) (st : Option (ℕ × Match × ℕ × ℕ)) :
    ltEditOpt ed (st.map (relabelSt2 f h)) = ltEditOpt ed st := by
  cases st with
  | none => rfl
  | some s => obtain ⟨e, m, i, j⟩ := s; rfl

theorem relabel_mlStep (f h : ℕ → ℕ) (ml : ℕ) (st : Option (ℕ × Match × ℕ × ℕ))
    (pr : (ℕ × Part) × (ℕ × Part)) :
    mlStep ml (st.map (relabelSt2 f h))
        ((pr.1.1, relabel f pr.1.2), (pr.2.1, relabel h pr.2.2)) =
      (mlStep ml st pr).map (relabelSt2 f h) := by
  simp only [mlStep, relabel_distance, relabelMatch_dist, ltEditOpt_relabel]
  split_ifs with hc
  · rfl
  · rfl

theorem relabel_gtSlideParts (f : ℕ → ℕ) (g : Part) (ml : ℕ) (ld : ℤ) :
    gtSlideParts (relabel f g) ml ld =
      (gtSlideParts g ml ld).map (fun pr => (pr.1, relabel f pr.2)) := by
  simp only [gtSlideParts, List.map_append, List.map_map, relabel_substring]
  rfl

theorem relabel_ocrSlideParts (h : ℕ → ℕ) (o : Part) (ml : ℕ) (ld : ℤ) :
    ocrSlideParts (relabel h o) ml ld =
      (ocrSlideParts o ml ld).map (fun pr => (pr.1, relabel h pr.2)) := by
  simp only [ocrSlideParts, List.map_append, List.map_map, relabel_substring]
  rfl

theorem flatMap_pairs_relabel (f h : ℕ → ℕ) :
    ∀ (la lb : List (ℕ × Part)),
    ((la.map (fun pr => (pr.1, relabel f pr.2))).flatMap fun a =>
        (lb.map (fun pr => (pr.1, relabel h pr.2))).map fun b => (a, b)) =
      (la.flatMap fun a => lb.map fun b => (a, b)).map
        (fun pr => ((pr.1.1, relabel f pr.1.2), (pr.2.1, relabel h pr.2.2)))
  | [], _ => rfl
  | a :: la, lb => by
    simp only [List.map_cons, List.flatMap_cons, flatMap_pairs_relabel f h la lb,
      List.map_append]
    congr 1
    simp only [List.map_map]
    rfl

theorem foldl_map_comm {σ τ α β : Type} (T : σ → τ) (F : α → β)
    (step : σ → α → σ) (stepT : τ → β → τ)
    (hcomm : ∀ s a, stepT (T s) (F a) = T (step s a)) :
    ∀ (l : List α) (s : σ), (l.map F).foldl stepT (T s) = T (l.foldl step s)
  | [], _ => rfl
  | a :: l, s => by
    simp only [List.map_cons, List.foldl_cons, hcomm]
    exact foldl_map_comm T F step stepT hcomm l (step s a)

theorem foldl_comm_fixed {σ τ α : Type} (T : σ → τ)
    (step : σ → α → σ) (stepT : τ → α → τ)
    (hcomm : ∀ s a, stepT (T s) a = T (step s a)) :
    ∀ (l : List α) (s : σ), l.foldl stepT (T s) = T (l.foldl step s)
  | [], _ => rfl
  | a :: l, s => by
    simp only [List.foldl_cons, hcomm]
    exact foldl_comm_fixed T step stepT hcomm l (step s a)

/-- Relabel the running state of the elongation pass. -/
def relabelSt1 (f h : ℕ → ℕ) : ℕ × Match → ℕ × Match
  | (e, m) => (e, relabelMatch f h m)

theorem relabel_elongStep (f h : ℕ → ℕ) (g o : Part) (ml i j : ℕ)
    (st : ℕ × Match) (k : ℕ) :
    elongStep (relabel f g) (relabel h o) ml i j (relabelSt1 f h st) k =
      relabelSt1 f h (elongStep g o ml i j st k) := by
  obtain ⟨e, m⟩ := st
  simp only [elongStep, relabel_substring, relabel_distance, relabelMatch_dist,
    relabelSt1]
  split_ifs with hc
  · rfl
  · rfl

theorem relabel_mlElongate (f h : ℕ → ℕ) (g o : Part) (ml : ℕ)
    (st : Option (ℕ × Match × ℕ × ℕ)) :
    mlElongate (relabel f g) (relabel h o) ml (st.map (relabelSt2 f h)) =
      (mlElongate g o ml st).map (relabelSt2 f h) := by
  cases st with
  | none => rfl
  | some s =>
    obtain ⟨e, m, i, j⟩ := s
    simp only [Option.map_some', relabelSt2, mlElongate, relabelMatch_dist,
      relabelMatch_gt, relabel_length]
    split_ifs with hc
    · rw [show ((e, relabelMatch f h m) : ℕ × Match) = relabelSt1 f h (e, m) from rfl,
        foldl_comm_fixed (relabelSt1 f h) (elongStep g o ml i j)
          (elongStep (relabel f g) (relabel h o) ml i j)
          (relabel_elongStep f h g o ml i j)]
      rfl
    · rfl

set_option maxHeartbeats 1000000 in
theorem relabel_match_lines (f h : ℕ → ℕ) (g o : Part) :
    match_lines (relabel f g) (relabel h o) =
      (match_lines g o).map (relabelMatch f h) := by
  simp only [match_lines, relabel_length]
  by_cases h0 : min g.length o.length = 0
  · rw [if_pos h0, if_pos h0]
    rfl
  · rw [if_neg h0, if_neg h0, relabel_gtSlideParts, relabel_ocrSlideParts,
      flatMap_pairs_relabel]
    have hfold := foldl_map_comm (Option.map (relabelSt2 f h))
      (fun pr => ((pr.1.1, relabel f pr.1.2), (pr.2.1, relabel h pr.2.2)))
      (mlStep (min g.length o.length)) (mlStep (min g.length o.length))
      (relabel_mlStep f h (min g.length o.length))
      ((gtSlideParts g (min g.length o.length)
          ((g.length : ℤ) - (o.length : ℤ))).flatMap (fun gp =>
        (ocrSlideParts o (min g.length o.length)
          ((g.length : ℤ) - (o.length : ℤ))).map (fun op => (gp, op)))) none
    simp only [Option.map_none'] at hfold
    rw [hfold, relabel_mlElongate,
      show distance (relabel f g) ⟨[], (relabel h o).line, (relabel h o).start⟩ =
        relabelMatch f h (distance g ⟨[], o.line, o.start⟩) from rfl,
      relabelMatch_dist, ltEditOpt_relabel]
    by_cases h1 : ltEditOpt (score_edit_distance
        (distance g ⟨[], o.line, o.start⟩).dist)
        (mlElongate g o (min g.length o.length)
          (((gtSlideParts g (min g.length o.length)
              ((g.length : ℤ) - (o.length : ℤ))).flatMap (fun gp =>
            (ocrSlideParts o (min g.length o.length)
              ((g.length : ℤ) - (o.length : ℤ))).map (fun op => (gp, op)))).foldl
            (mlStep (min g.length o.length)) none)) = true
    · rw [if_pos h1, if_pos h1]
      rfl
    · rw [if_neg h1, if_neg h1]
      cases mlElongate g o (min g.length o.length)
          (((gtSlideParts g (min g.length o.length)
              ((g.length : ℤ) - (o.length : ℤ))).flatMap (fun gp =>
            (ocrSlideParts o (min g.length o.length)
              ((g.length : ℤ) - (o.length : ℤ))).map (fun op => (gp, op)))).foldl
            (mlStep (min g.length o.length)) none) with
      | none => rfl
      | some s => obtain ⟨e, m, i, j⟩ := s; rfl

/-- Relabel the running state of `match_gt_line`'s loop. -/
def relabelSt3 (f h : ℕ → ℕ) : ℚ × Match × Part → ℚ × Match × Part
  | (p, m, o) => (p, relabelMatch f h m, relabel h o)

theorem ltPenOpt_relabel (f h : ℕ → ℕ) (p : ℚ) (st : Option (ℚ × Match × Part)) :
    ltPenOpt p (st.map (relabelSt3 f h)) = ltPenOpt p st := by
  cases st with
  | none => rfl
  | some s => obtain ⟨q, m, o⟩ := s; rfl

theorem relabel_mglStep (f h : ℕ → ℕ) (g : Part) (coef : Coefficients)
    (st : Option (ℚ × Match × Part)) (o : Part) :
    mglStep (relabel f g) coef (st.map (relabelSt3 f h)) (relabel h o) =
      (mglStep g coef st o).map (relabelSt3 f h) := by
  simp only [mglStep, relabel_match_lines]
  cases hml : match_lines g o with
  | none => rfl
  | some m =>
    simp only [Option.map_some']
    simp only [relabel_length, relabel_start, relabelMatch_gt, relabelMatch_ocr,
      relabelMatch_dist, relabel_start, ltPenOpt_relabel]
    split_ifs with hc
    · rfl
    · rfl

theorem relabel_match_gt_line (f h : ℕ → ℕ) (g : Part) (os : List Part)
    (coef : Coefficients) :
    match_gt_line (relabel f g) (os.map (relabel h)) coef =
      ((match_gt_line g os coef).1.map (relabelMatch f h),
        (match_gt_line g os coef).2.map (relabel h)) := by
  simp only [match_gt_line]
  have hfold := foldl_map_comm (Option.map (relabelSt3 f h)) (relabel h)
    (mglStep g coef) (mglStep (relabel f g) coef) (relabel_mglStep f h g coef) os none
  simp only [Option.map_none'] at hfold
  rw [hfold]
  cases os.foldl (mglStep g coef) none with
  | none => rfl
  | some s => obtain ⟨p, m, o⟩ := s; rfl

/-- Relabel the running state of the candidate loop of
`match_longest_gt_lines`. -/
def relabelSt4 (f h : ℕ → ℕ) : ℚ × Match × Part × Part → ℚ × Match × Part × Part
  | (s, m, g, o) => (s, relabelMatch f h m, relabel f g, relabel h o)

theorem gtScoreOpt_relabel (f h : ℕ → ℕ) (s : ℚ)
    (st : Option (ℚ × Match × Part × Part)) :
    gtScoreOpt s (st.map (relabelSt4 f h)) = gtScoreOpt s st := by
  cases st with
  | none => rfl
  | some t => obtain ⟨q, m, g, o⟩ := t; rfl

theorem geOneOpt_relabel (f h : ℕ → ℕ) (st : Option (ℚ × Match × Part × Part)) :
    geOneOpt (st.map (relabelSt4 f h)) = geOneOpt st := by
  cases st with
  | none => rfl
  | some t => obtain ⟨q, m, g, o⟩ := t; rfl

theorem relabel_mlglStep (f h : ℕ → ℕ) (os : List Part) (coef : Coefficients)
    (st : Option (ℚ × Match × Part × Part)) (g : Part) :
    mlglStep (os.map (relabel h)) coef (st.map (relabelSt4 f h)) (relabel f g) =
      (mlglStep os coef st g).map (relabelSt4 f h) := by
  simp only [mlglStep, relabel_match_gt_line]
  rcases hmg : match_gt_line g os coef with ⟨mo, oo⟩
  cases mo with
  | none => cases oo <;> rfl
  | some m =>
    cases oo with
    | none => rfl
    | some o =>
      simp only [Option.map_some']
      simp only [relabelMatch_dist, gtScoreOpt_relabel]
      split_ifs with hc
      · rfl
      · rfl

theorem relabel_mlglGo (f h : ℕ → ℕ) (os : List Part) (coef : Coefficients) :
    ∀ (gs : List Part) (st : Option (ℚ × Match × Part × Part)),
    mlglGo (os.map (relabel h)) coef (gs.map (relabel f)) (st.map (relabelSt4 f h)) =
      (mlglGo os coef gs st).map (relabelSt4 f h)
  | [], _ => rfl
  | g :: gs, st => by
    simp only [List.map_cons, mlglGo, relabel_mlglStep, geOneOpt_relabel]
    split_ifs with hc
    · rfl
    · exact relabel_mlglGo f h os coef gs (mlglStep os coef st g)

theorem relabel_insertDesc (f : ℕ → ℕ) (x : Part) :
    ∀ l : List Part,
    insertDesc (relabel f x) (l.map (relabel f)) = (insertDesc x l).map (relabel f)
  | [] => rfl
  | y :: ys => by
    simp only [List.map_cons, insertDesc, relabel_length]
    split_ifs with hc
    · simp only [List.map_cons, relabel_insertDesc f x ys]
    · simp only [List.map_cons]

theorem relabel_sortDesc (f : ℕ → ℕ) :
    ∀ l : List Part, sortDesc (l.map (relabel f)) = (sortDesc l).map (relabel f)
  | [] => rfl
  | x :: xs => by
    simp only [List.map_cons, sortDesc, relabel_sortDesc f xs, relabel_insertDesc]

theorem relabel_erase {f : ℕ → ℕ} (hf : Function.Injective f) (p : Part)
    (l : List Part) :
    (l.map (relabel f)).erase (relabel f p) = (l.erase p).map (relabel f) :=
  (List.map_erase (relabel_injective hf) l).symm

theorem relabel_remove_or_split {f : ℕ → ℕ} (hf : Function.Injective f)
    (orig mt : Part) (lines : List Part) :
    remove_or_split (relabel f orig) (relabel f mt) (lines.map (relabel f)) =
      ((remove_or_split orig mt lines).1.map (relabel f),
        (remove_or_split orig mt lines).2) := by
  simp only [remove_or_split, relabel_length, relabel_erase hf, relabel_split]
  split_ifs with hc
  · rw [← List.map_append, relabel_sortDesc]
  · rfl

theorem relabel_takeWhile (f : ℕ → ℕ) (t : ℤ) :
    ∀ l : List Part,
    (l.map (relabel f)).takeWhile (fun p => decide (t < (p.length : ℤ))) =
      (l.takeWhile (fun p => decide (t < (p.length : ℤ)))).map (relabel f)
  | [] => rfl
  | x :: xs => by
    simp only [List.map_cons, List.takeWhile_cons, relabel_length]
    split_ifs with hc
    · simp only [List.map_cons, relabel_takeWhile f t xs]
    · rfl

theorem relabel_match_longest_gt_lines {f h : ℕ → ℕ} (hf : Function.Injective f)
    (hh : Function.Injective h) (gl ol : List Part) (coef : Coefficients) :
    match_longest_gt_lines (gl.map (relabel f)) (ol.map (relabel h)) coef =
      ((match_longest_gt_lines gl ol coef).1.map (relabelMatch f h),
        (match_longest_gt_lines gl ol coef).2.1.map (relabel f),
        (match_longest_gt_lines gl ol coef).2.2.map (relabel h)) := by
  cases ol with
  | nil => cases gl <;> rfl
  | cons o0 os =>
    cases gl with
    | nil => rfl
    | cons g0 gs =>
      rw [List.map_cons, List.map_cons, match_longest_gt_lines_cons,
        match_longest_gt_lines_cons]
      simp only [relabel_length]
      rw [← List.map_cons (relabel f), ← List.map_cons (relabel h),
        relabel_takeWhile f]
      have hgo := relabel_mlglGo f h (o0 :: os) coef
        ((g0 :: gs).takeWhile (fun l : Part =>
          decide (((min g0.length o0.length : ℕ) : ℤ) - 1 < (l.length : ℤ)))) none
      simp only [Option.map_none'] at hgo
      rw [hgo]
      cases hres : mlglGo (o0 :: os) coef
          ((g0 :: gs).takeWhile (fun l : Part =>
            decide (((min g0.length o0.length : ℕ) : ℤ) - 1 < (l.length : ℤ)))) none with
      | none => rfl
      | some s =>
        obtain ⟨q, m, bg, bo⟩ := s
        simp only [Option.map_some', relabelSt4]
        rw [relabelMatch_gt, relabelMatch_ocr,
          relabel_remove_or_split hf, relabel_remove_or_split hh]

theorem isEmpty_map_eq {α β : Type} (F : α → β) (l : List α) :
    (l.map F).isEmpty = l.isEmpty := by
  cases l <;> rfl

theorem toList_map_eq {α β : Type} (F : α → β) (o : Option α) :
    (o.map F).toList = o.toList.map F := by
  cases o <;> rfl

theorem relabel_mwcLoop {f h : ℕ → ℕ} (hf : Function.Injective f)
    (hh : Function.Injective h) (coef : Coefficients) :
    ∀ (fuel : ℕ) (gl ol : List Part) (ms : List Match),
    mwcLoop coef fuel (gl.map (relabel f)) (ol.map (relabel h))
        (ms.map (relabelMatch f h)) =
      ((mwcLoop coef fuel gl ol ms).1.map (relabelMatch f h),
        (mwcLoop coef fuel gl ol ms).2.1.map (relabel f),
        (mwcLoop coef fuel gl ol ms).2.2.map (relabel h))
  | 0, _, _, _ => rfl
  | fuel + 1, gl, ol, ms => by
    simp only [mwcLoop, isEmpty_map_eq]
    split_ifs with hc
    · rfl
    · rw [relabel_match_longest_gt_lines hf hh]
      dsimp only
      rw [toList_map_eq, ← List.map_append]
      exact relabel_mwcLoop hf hh coef fuel _ _ _

theorem relabel_sumLen (f : ℕ → ℕ) (l : List Part) :
    sumLen (l.map (relabel f)) = sumLen l := by
  simp only [sumLen, List.map_map]
  rfl

theorem relabel_match_with_coefficients_dist {f h : ℕ → ℕ}
    (hf : Function.Injective f) (hh : Function.Injective h)
    (gt gt' ocr ocr' : List Char) (coef : Coefficients)
    (hg : initialize_lines gt' = (initialize_lines gt).map (relabel f))
    (ho : initialize_lines ocr' = (initialize_lines ocr).map (relabel h)) :
    (match_with_coefficients gt' ocr' coef).map Match.dist =
      (match_with_coefficients gt ocr coef).map Match.dist := by
  simp only [match_with_coefficients, hg, ho, relabel_sumLen]
  have hloop := relabel_mwcLoop hf hh coef (sumLen (initialize_lines gt) + 1)
    (initialize_lines gt) (initialize_lines ocr) []
  simp only [List.map_nil] at hloop
  rw [hloop]
  dsimp only
  simp only [List.map_append, List.map_map]
  rfl

theorem aggDist_eq_of_dist_map (ms ms' : List Match)
    (hd : ms'.map Match.dist = ms.map Match.dist) : aggDist ms' = aggDist ms := by
  have key : ∀ l : List Match,
      aggDist l = (l.map Match.dist).foldl addDist ⟨0, 0, 0, 0⟩ := by
    intro l
    rw [List.foldl_map]
    rfl
  rw [key ms', key ms, hd]

theorem cafm_eq_of_dist_map (ms ms' : List Match)
    (hd : ms'.map Match.dist = ms.map Match.dist) :
    character_accuracy_for_matches ms' = character_accuracy_for_matches ms := by
  unfold character_accuracy_for_matches
  rw [aggDist_eq_of_dist_map ms ms' hd]

theorem relabel_sweepGo (gt gt' ocr ocr' : List Char)
    (hmw : ∀ c : Coefficients,
      character_accuracy_for_matches (match_with_coefficients gt' ocr' c) =
        character_accuracy_for_matches (match_with_coefficients gt ocr c)) :
    ∀ (cs : List Coefficients) (s : Option ℚ) (ms' ms : List Match),
    (sweepGo gt' ocr' cs (s, ms')).1 = (sweepGo gt ocr cs (s, ms)).1
  | [], _, _, _ => rfl
  | c :: cs, s, ms', ms => by
    simp only [sweepGo, hmw c]
    by_cases hb : gtOptBot
        (character_accuracy_for_matches (match_with_coefficients gt ocr c)) s = true
    · rw [if_pos hb, if_pos hb]
      dsimp only
      by_cases h1 : geOneBot
          (some (character_accuracy_for_matches (match_with_coefficients gt ocr c))) = true
      · rw [if_pos h1, if_pos h1]
      · rw [if_neg h1, if_neg h1]
        exact relabel_sweepGo gt gt' ocr ocr' hmw cs _ _ _
    · rw [if_neg hb, if_neg hb]
      dsimp only
      by_cases h1 : geOneBot s = true
      · rw [if_pos h1, if_pos h1]
      · rw [if_neg h1, if_neg h1]
        exact relabel_sweepGo gt gt' ocr ocr' hmw cs s ms' ms

/-- Claim C2, amended: the score of `flexible_character_accuracy` is invariant
under relabelling the source-line indices — if the two GT inputs produce the
same length-sorted pool up to an injective renaming `f` of the line indices,
and likewise the two OCR inputs up to `h`, the scores agree.  (A permutation
of the input lines that reorders equal-length lines in the sorted pool can
change the score: see the counterexample.) -/
theorem flexible_character_accuracy_relabel_invariant
    (gt gt' ocr ocr' : List Char) (f h : ℕ → ℕ)
    (hf : Function.Injective f) (hh : Function.Injective h)
    (hg : initialize_lines gt' = (initialize_lines gt).map (relabel f))
    (ho : initialize_lines ocr' = (initialize_lines ocr).map (relabel h)) :
    (flexible_character_accuracy gt' ocr').1 =
      (flexible_character_accuracy gt ocr).1 := by
  unfold flexible_character_accuracy
  exact relabel_sweepGo gt gt' ocr ocr'
    (fun c => cafm_eq_of_dist_map _ _
      (relabel_match_with_coefficients_dist hf hh gt gt' ocr ocr' c hg ho))
    coefGrid none [] []

/-- Witness for `flexible_character_accuracy_relabel_invariant`: swapping the
two (distinct-length) lines of `"a\nbb"` relabels the GT pool by the
transposition of the indices 0 and 1 and leaves the score unchanged. -/
theorem flexible_character_accuracy_relabel_invariant_witness :
    Function.Injective (fun n : ℕ => if n = 0 then 1 else if n = 1 then 0 else n) ∧
    Function.Injective (fun n : ℕ => n) ∧
    initialize_lines ("bb\na".toList) =
      (initialize_lines ("a\nbb".toList)).map
        (relabel (fun n : ℕ => if n = 0 then 1 else if n = 1 then 0 else n)) ∧
    initialize_lines ("ab".toList) =
      (initialize_lines ("ab".toList)).map (relabel (fun n : ℕ => n)) ∧
    (flexible_character_accuracy ("bb\na".toList) ("ab".toList)).1 =
      (flexible_character_accuracy ("a\nbb".toList) ("ab".toList)).1 := by
  refine ⟨?_, ?_, ?_, ?_, ?_⟩
  · intro a b hab
    dsimp only at hab
    split_ifs at hab <;> omega
  · intro a b hab
    exact hab
  · decide
  · decide
  · exact flexible_character_accuracy_relabel_invariant ("a\nbb".toList)
      ("bb\na".toList) ("ab".toList) ("ab".toList)
      (fun n : ℕ => if n = 0 then 1 else if n = 1 then 0 else n) (fun n : ℕ => n)
      (by intro a b hab; dsimp only at hab; split_ifs at hab <;> omega)
      (fun a b hab => hab) (by decide) (by decide)

set_option maxRecDepth 10000 in
/-- Claim C2, counterexample: the score is NOT invariant under permuting the
input lines — swapping the two OCR lines of `fca("a\naa", "ab\nbb")` changes
the returned score. -/
theorem flexible_character_accuracy_permutation_counterexample :
    (flexible_character_accuracy ("a\naa".toList) ("ab\nbb".toList)).1 ≠
      (flexible_character_accuracy ("a\naa".toList) ("bb\nab".toList)).1 := by
  decide!

end FCA
